import Mathlib

/-!
# rlm_unbound: label decoder, bounded wait and lookups

A shallow embedding of `src/modules/rlm_unbound/rlm_unbound.c`.

* Buffers are lists of bytes (`Nat` values, intended range `0..255`).  A
  `char *` into a buffer is the list of bytes from that address to the end of
  the buffer, so `rr + offset` is `rr.drop offset`.
* A read or a write past the end of a buffer is undefined behaviour in C; the
  embedding makes it explicit as a `Fault`.
* Loops are structurally recursive on a fuel argument; running out of fuel is
  the fault `Fault.fuel` and stands for a loop that has not finished.
* Calls into libunbound, libc and talloc are recorded as a list of `Event`s.
* `useconds_t` arithmetic is taken modulo `2 ^ 32`; `int` values are integers
  (the products `timeout * 1000` of the module stay far below `2 ^ 31` for the
  timeouts `mod_instantiate` lets through).
* The slot `*ubres` is read through an oracle: `pending k` tells whether the
  `k`-th read in `ub_common_wait` still sees the sentinel; once the wait has
  succeeded the slot holds what `link_ubres` stored.
-/

namespace RlmUnbound

/-! ## Faults and buffers -/

/-- Ways a run can leave defined behaviour. -/
inductive Fault where
  /-- A read past the end of a buffer. -/
  | read
  /-- A write past the end of a buffer. -/
  | write
  /-- The loop did not finish within the fuel given. -/
  | fuel
deriving DecidableEq, Repr

/-- The byte `'.'`. -/
def DOT : Nat := 46

/-- Libc `strlen(s)`: the number of bytes before the first zero byte.  Running
off the end of the buffer without meeting a zero byte is a read fault. -/
def strlen : List Nat → Except Fault Nat
  | [] => .error .read
  | b :: bs =>
    if b = 0 then .ok 0
    else
      match strlen bs with
      | .ok n => .ok (n + 1)
      | .error e => .error e

/-- Libc `strnlen(s, maxlen)`: the number of bytes before the first zero byte,
looking at no more than `maxlen` bytes. -/
def strnlen : List Nat → Nat → Except Fault Nat
  | _, 0 => .ok 0
  | [], _ + 1 => .error .read
  | b :: bs, n + 1 =>
    if b = 0 then .ok 0
    else
      match strnlen bs n with
      | .ok m => .ok (m + 1)
      | .error e => .error e

/-- The store `*(out + i) = v`. -/
def store (out : List Nat) (i v : Nat) : Except Fault (List Nat) :=
  if i < out.length then .ok (out.set i v) else .error .write

/-- Libc `memcpy(out + off, src, n)`. -/
def memcpy (out : List Nat) (off : Nat) (src : List Nat) (n : Nat) :
    Except Fault (List Nat) :=
  if src.length < n then .error .read
  else if out.length < off + n then .error .write
  else .ok (out.take off ++ src.take n ++ out.drop (off + n))

/-! ## rrlabels_tostr -/

/-- The first loop of `rrlabels_tostr` ("does it look well formed?"), entered
with the current `offset`.  The result is `true` when the loop leaves through
`break` and `false` when it leaves through `return -1`. -/
def validate (rr : List Nat) : Nat → Nat → Except Fault Bool
  | 0, _ => .error .fuel
  | fuel + 1, offset =>
    match rr.drop offset with
    | [] => .error .read
    | count :: _ =>
      if count = 0 then .ok true
      else if count > 63 then .ok false
      else
        match strlen (rr.drop (offset + 1)) with
        | .error e => .error e
        | .ok n =>
          if n < count then .ok false
          else validate rr fuel (offset + 1 + count)

/-- The second loop of `rrlabels_tostr` ("Data is valid and fits.  Copy it."),
entered with the current pointer `rr`, the current `offset` and the output
buffer.  The result is the final `offset` and the output buffer. -/
def copy_loop : Nat → List Nat → Nat → List Nat → Except Fault (Nat × List Nat)
  | 0, _, _, _ => .error .fuel
  | _ + 1, [], _, _ => .error .read
  | fuel + 1, count :: rr, offset, out =>
    if count = 0 then .ok (offset, out)
    else
      match (if offset ≠ 0 then
               match store out offset DOT with
               | .ok o => Except.ok (o, offset + 1)
               | .error e => .error e
             else .ok (out, offset)) with
      | .error e => .error e
      | .ok (out1, offset1) =>
        match memcpy out1 offset1 rr count with
        | .error e => .error e
        | .ok out2 => copy_loop fuel (rr.drop count) (offset1 + count) out2

/-- The function `rrlabels_tostr(out, rr, left)`.  The result is the return
value and the output buffer after the call. -/
def rrlabels_tostr (out rr : List Nat) (left : Nat) : Except Fault (Int × List Nat) :=
  if left = 0 then .ok (-1, out)
  else
    let left := if left > 253 then 253 else left
    match strnlen rr left with
    | .error e => .error e
    | .ok n =>
      if n > left - 1 then .ok (-1, out)
      else
        match validate rr (rr.length + 1) 0 with
        | .error e => .error e
        | .ok false => .ok (-1, out)
        | .ok true =>
          match copy_loop (rr.length + 1) rr 0 out with
          | .error e => .error e
          | .ok (offset, out1) =>
            match store out1 offset 0 with
            | .error e => .error e
            | .ok out2 => .ok ((offset : Int), out2)

/-! ## Label sequences -/

/-- Wire form of a list of labels, without the terminating zero-length label:
each label is preceded by its length byte. -/
def wire : List (List Nat) → List Nat
  | [] => []
  | l :: ls => l.length :: (l ++ wire ls)

/-- The bytes `'.' l` for every label of the list. -/
def dotsAfter : List (List Nat) → List Nat
  | [] => []
  | l :: ls => DOT :: (l ++ dotsAfter ls)

/-- The dotted form `l1 '.' l2 '.' ... '.' lk` of a list of labels. -/
def dotted : List (List Nat) → List Nat
  | [] => []
  | l :: ls => l ++ dotsAfter ls

/-- A label the decoder takes: between 1 and 63 bytes, none of them zero. -/
def LabelOk (l : List Nat) : Prop :=
  1 ≤ l.length ∧ l.length ≤ 63 ∧ 0 ∉ l

instance (l : List Nat) : Decidable (LabelOk l) := by
  unfold LabelOk
  infer_instance

/-- The label walk over a raw buffer: `Walk rr off p` says that a walk that
reads a length byte at `off` and hops over non-empty labels reads a length byte
at `p`. -/
inductive Walk (rr : List Nat) : Nat → Nat → Prop where
  | here (off : Nat) : Walk rr off off
  | step (off c p : Nat) : rr[off]? = some c → c ≠ 0 → Walk rr (off + 1 + c) p →
      Walk rr off p

/-- The caller's side of the contract of `strnlen(rr, left)`: the buffer holds
a zero byte or at least `min(left, 253)` bytes. -/
def Readable (rr : List Nat) (left : Nat) : Prop :=
  0 ∈ rr ∨ min left 253 ≤ rr.length

instance (rr : List Nat) (left : Nat) : Decidable (Readable rr left) := by
  unfold Readable
  infer_instance

/-! ## Events, resolver answers and the slot -/

/-- The struct `ub_result` of libunbound, with the fields the module reads. -/
structure ub_result where
  /-- Field `bogus`. -/
  bogus : Int
  /-- Field `nxdomain`. -/
  nxdomain : Int
  /-- Field `havedata`. -/
  havedata : Int
  /-- The bytes at `data[0]`. -/
  data0 : List Nat
deriving DecidableEq, Repr

/-- Calls the module makes into libunbound, libc and talloc. -/
inductive Event where
  /-- The call `talloc(inst, struct ub_result *)` that makes the slot. -/
  | talloc_ubres
  /-- The call `ub_resolve_async(..., rrtype, 1, ...)`. -/
  | ub_resolve_async (rrtype : Nat)
  /-- The call `talloc_free(fmt2)`. -/
  | talloc_free_fmt2
  /-- The call `ub_process(inst->ub)`. -/
  | ub_process
  /-- The call `usleep(us)`. -/
  | usleep (us : Nat)
  /-- The call `ub_cancel(inst->ub, async_id)`. -/
  | ub_cancel (async_id : Int)
  /-- The call `ub_resolve_free(p)`; `none` is the NULL pointer. -/
  | ub_resolve_free (p : Option ub_result)
  /-- The call `talloc_free(ubres)` that frees the slot. -/
  | talloc_free_ubres
deriving DecidableEq, Repr

/-- The callback `link_ubres(my_arg, err, result)`: the value it stores in the
slot; `none` is the NULL pointer. -/
def link_ubres (err : Int) (result : Option ub_result) : Option ub_result :=
  if err ≠ 0 then none else result

/-- Conversion of an `int` to the 32-bit unsigned `useconds_t`. -/
def u32 (x : Int) : Nat := (x % 4294967296).toNat

/-- The range check of `mod_instantiate` on the configured timeout:
`(inst->timeout < 0) || (inst->timeout > 10000)` is an error. -/
def timeout_ok (timeout : Int) : Bool :=
  !(decide (timeout < 0) || decide (timeout > 10000))

/-! ## ub_common_wait -/

/-- The `for` loop of `ub_common_wait`, entered at its test.  `pending k` is
what the `k`-th read of the slot sees: `true` when the slot still holds the
sentinel `inst`.  The result is the number of reads of the slot made so far
and the calls made by the loop. -/
def wait_loop (timeout : Int) (pending : Nat → Bool) :
    Nat → Nat → Nat → Nat → Except Fault (Nat × List Event)
  | 0, _, _, _ => .error .fuel
  | fuel + 1, k, waited, iv =>
    if pending k then
      if (waited + iv) % 4294967296 > (u32 timeout * 1000) % 4294967296 then
        .ok (k + 1, [.usleep (u32 (timeout * 1000 - (waited : Int))), .ub_process])
      else if !pending (k + 1) then
        .ok (k + 2, [.usleep iv])
      else
        match wait_loop timeout pending fuel (k + 2) ((waited + iv) % 4294967296)
            ((iv + iv) % 4294967296) with
        | .error e => .error e
        | .ok (k1, evs) => .ok (k1, .usleep iv :: .ub_process :: evs)
    else .ok (k + 1, [])

/-- The function `ub_common_wait(inst, request, tag, ub, async_id)`.  The
result is the return value and the calls made. -/
def ub_common_wait (fuel : Nat) (timeout : Int) (pending : Nat → Bool) (async_id : Int) :
    Except Fault (Int × List Event) :=
  let iv : Nat := if timeout > 64 then 64000 else u32 (timeout * 1000)
  match wait_loop timeout pending fuel 0 0 iv with
  | .error e => .error e
  | .ok (k, evs) =>
    if pending k then .ok (-1, .ub_process :: (evs ++ [.ub_cancel async_id]))
    else .ok (0, .ub_process :: evs)

/-! ## ub_common_fail -/

/-- The log line `ub_common_fail` writes. -/
inductive Diag where
  /-- The line "Bogus DNS response". -/
  | bogus
  /-- The line "NXDOMAIN". -/
  | nxdomain
  /-- The line "empty result". -/
  | empty
deriving DecidableEq, Repr

/-- The function `ub_common_fail(request, tag, ub)`: its return value and the
line it logs. -/
def ub_common_fail (ub : ub_result) : Int × Option Diag :=
  if ub.bogus ≠ 0 then (-1, some .bogus)
  else if ub.nxdomain ≠ 0 then (-1, some .nxdomain)
  else if ub.havedata = 0 then (-1, some .empty)
  else (0, none)

/-! ## The three lookups -/

/-- What the resolver does during one lookup. -/
structure Resolver where
  /-- Return value of `ub_resolve_async`. -/
  submit_rc : Int
  /-- Content of the variable `async_id` after `ub_resolve_async`. -/
  async_id : Int
  /-- What each read of the slot in `ub_common_wait` sees: `true` for the
  sentinel. -/
  pending : Nat → Bool
  /-- Argument `err` of the callback. -/
  cb_err : Int
  /-- Argument `result` of the callback. -/
  cb_result : Option ub_result

/-- Libc `inet_ntop(af, src, out, size)`, taken as given: `none` is the NULL
return value, `some o` is the output buffer after a successful call. -/
abbrev InetNtop := Nat → List Nat → List Nat → Nat → Option (List Nat)

/-- The constant `AF_INET`. -/
def AF_INET : Nat := 2

/-- The constant `AF_INET6`. -/
def AF_INET6 : Nat := 10

/-- The function `xlat_a(instance, request, fmt, out, freespace)`.  The result
is the return value, the output buffer and the calls made. -/
def xlat_a (ntop : InetNtop) (fuel : Nat) (timeout : Int) (env : Resolver)
    (out : List Nat) (freespace : Nat) : Except Fault (Int × List Nat × List Event) :=
  let pre : List Event := [.talloc_ubres, .ub_resolve_async 1, .talloc_free_fmt2]
  match ub_common_wait fuel timeout env.pending env.async_id with
  | .error e => .error e
  | .ok (rc, evs) =>
    if rc ≠ 0 then .ok (-1, out, pre ++ evs ++ [.talloc_free_ubres])
    else
      match link_ubres env.cb_err env.cb_result with
      | some ub =>
        if (ub_common_fail ub).1 ≠ 0 then
          .ok (-1, out, pre ++ evs ++ [.ub_resolve_free (some ub), .talloc_free_ubres])
        else
          match ntop AF_INET ub.data0 out freespace with
          | none => .ok (-1, out, pre ++ evs ++ [.ub_resolve_free (some ub), .talloc_free_ubres])
          | some out1 =>
            match strlen out1 with
            | .error e => .error e
            | .ok n =>
              .ok ((n : Int), out1, pre ++ evs ++ [.ub_resolve_free (some ub), .talloc_free_ubres])
      | none => .ok (-1, out, pre ++ evs ++ [.ub_resolve_free none, .talloc_free_ubres])

/-- The function `xlat_aaaa(instance, request, fmt, out, freespace)`. -/
def xlat_aaaa (ntop : InetNtop) (fuel : Nat) (timeout : Int) (env : Resolver)
    (out : List Nat) (freespace : Nat) : Except Fault (Int × List Nat × List Event) :=
  let pre : List Event := [.talloc_ubres, .ub_resolve_async 28, .talloc_free_fmt2]
  match ub_common_wait fuel timeout env.pending env.async_id with
  | .error e => .error e
  | .ok (rc, evs) =>
    if rc ≠ 0 then .ok (-1, out, pre ++ evs ++ [.talloc_free_ubres])
    else
      match link_ubres env.cb_err env.cb_result with
      | some ub =>
        if (ub_common_fail ub).1 ≠ 0 then
          .ok (-1, out, pre ++ evs ++ [.ub_resolve_free (some ub), .talloc_free_ubres])
        else
          match ntop AF_INET6 ub.data0 out freespace with
          | none => .ok (-1, out, pre ++ evs ++ [.ub_resolve_free (some ub), .talloc_free_ubres])
          | some out1 =>
            match strlen out1 with
            | .error e => .error e
            | .ok n =>
              .ok ((n : Int), out1, pre ++ evs ++ [.ub_resolve_free (some ub), .talloc_free_ubres])
      | none => .ok (-1, out, pre ++ evs ++ [.ub_resolve_free none, .talloc_free_ubres])

/-- The function `xlat_ptr(instance, request, fmt, out, freespace)`. -/
def xlat_ptr (fuel : Nat) (timeout : Int) (env : Resolver)
    (out : List Nat) (freespace : Nat) : Except Fault (Int × List Nat × List Event) :=
  let pre : List Event := [.talloc_ubres, .ub_resolve_async 12, .talloc_free_fmt2]
  match ub_common_wait fuel timeout env.pending env.async_id with
  | .error e => .error e
  | .ok (rc, evs) =>
    if rc ≠ 0 then .ok (-1, out, pre ++ evs ++ [.talloc_free_ubres])
    else
      match link_ubres env.cb_err env.cb_result with
      | some ub =>
        if (ub_common_fail ub).1 ≠ 0 then
          .ok (-1, out, pre ++ evs ++ [.ub_resolve_free (some ub), .talloc_free_ubres])
        else
          match rrlabels_tostr out ub.data0 freespace with
          | .error e => .error e
          | .ok (r, out1) =>
            if r < 0 then
              .ok (-1, out1, pre ++ evs ++ [.ub_resolve_free (some ub), .talloc_free_ubres])
            else
              match strlen out1 with
              | .error e => .error e
              | .ok n =>
                .ok ((n : Int), out1,
                  pre ++ evs ++ [.ub_resolve_free (some ub), .talloc_free_ubres])
      | none => .ok (-1, out, pre ++ evs ++ [.ub_resolve_free none, .talloc_free_ubres])

/-! ## Reading a list of calls -/

/-- Sum of the durations of the `usleep` calls. -/
def sleepTotal : List Event → Nat
  | [] => 0
  | .usleep us :: evs => us + sleepTotal evs
  | _ :: evs => sleepTotal evs

/-- The durations of the `usleep` calls, in order. -/
def sleeps : List Event → List Nat
  | [] => []
  | .usleep us :: evs => us :: sleeps evs
  | _ :: evs => sleeps evs

/-- Number of `ub_cancel` calls. -/
def cancelCount : List Event → Nat
  | [] => 0
  | .ub_cancel _ :: evs => 1 + cancelCount evs
  | _ :: evs => cancelCount evs

/-- Number of `ub_process` calls. -/
def processCount : List Event → Nat
  | [] => 0
  | .ub_process :: evs => 1 + processCount evs
  | _ :: evs => processCount evs

/-- The arguments of the `ub_resolve_free` calls, in order. -/
def resolveFrees : List Event → List (Option ub_result)
  | [] => []
  | .ub_resolve_free p :: evs => p :: resolveFrees evs
  | _ :: evs => resolveFrees evs

/-- Number of `talloc_free(ubres)` calls. -/
def slotFrees : List Event → Nat
  | [] => 0
  | .talloc_free_ubres :: evs => 1 + slotFrees evs
  | _ :: evs => slotFrees evs

/-! ## Re-encoding a dotted name -/

/-- The pieces of a dotted name: the name split on `'.'`; the empty name has
no piece. -/
def pieces (s : List Nat) : List (List Nat) :=
  if s = [] then [] else s.splitOn DOT

/-- Re-encoding of a dotted name: split on `'.'`, put its one-byte length in
front of each piece, append a zero byte. -/
def reencode (s : List Nat) : List Nat :=
  wire (pieces s) ++ [0]

/-! ## The polling intervals -/

/-- The first `j` polling intervals: `iv, 2 * iv, 4 * iv, ...`. -/
def backoff (iv : Nat) : Nat → List Nat
  | 0 => []
  | j + 1 => iv :: backoff (2 * iv) j

/-- The first polling interval in microseconds: `min(64 ms, timeout)`. -/
def firstInterval (timeout : Int) : Nat := min 64 timeout.toNat * 1000

/-- The timeout budget in microseconds. -/
def budget (timeout : Int) : Nat := timeout.toNat * 1000

/-! ## The common shape of the three lookups -/

/-- What a lookup for the record type `rrtype` returns, given what
`ub_common_wait` returned and what the slot holds: `r` is the result of the
lookup.  After a failed wait only the slot is freed; after a wait that
succeeded the content of the slot is passed to `ub_resolve_free` and the slot
is freed; a NULL or refused answer gives -1 and leaves `out` alone. -/
def LookupShape (rrtype fuel : Nat) (timeout : Int) (env : Resolver) (out : List Nat)
    (r : Except Fault (Int × List Nat × List Event)) : Prop :=
  match ub_common_wait fuel timeout env.pending env.async_id with
  | .error e => r = .error e
  | .ok (wrc, wevs) =>
    if wrc ≠ 0 then
      r = .ok (-1, out,
        [.talloc_ubres, .ub_resolve_async rrtype, .talloc_free_fmt2] ++ wevs ++
          [.talloc_free_ubres])
    else
      match link_ubres env.cb_err env.cb_result with
      | none =>
        r = .ok (-1, out,
          [.talloc_ubres, .ub_resolve_async rrtype, .talloc_free_fmt2] ++ wevs ++
            [.ub_resolve_free none, .talloc_free_ubres])
      | some ub =>
        if (ub_common_fail ub).1 ≠ 0 then
          r = .ok (-1, out,
            [.talloc_ubres, .ub_resolve_async rrtype, .talloc_free_fmt2] ++ wevs ++
              [.ub_resolve_free (some ub), .talloc_free_ubres])
        else
          (∃ e, r = .error e) ∨
          ∃ rc out1, r = .ok (rc, out1,
            [.talloc_ubres, .ub_resolve_async rrtype, .talloc_free_fmt2] ++ wevs ++
              [.ub_resolve_free (some ub), .talloc_free_ubres])

/-! ## Facts about strlen and strnlen -/

theorem strlen_append (a b : List Nat) (ha : 0 ∉ a) :
    strlen (a ++ 0 :: b) = .ok a.length := by
  induction a with
  | nil => simp [strlen]
  | cons x a ih =>
    have hx : x ≠ 0 := fun h => ha (by simp [h])
    have ha2 : 0 ∉ a := fun h => ha (by simp [h])
    simp [strlen, hx, ih ha2]

theorem strlen_ok (s : List Nat) (n : Nat) (h : strlen s = .ok n) :
    ∃ a b, s = a ++ 0 :: b ∧ 0 ∉ a ∧ a.length = n := by
  induction s generalizing n with
  | nil => simp [strlen] at h
  | cons x s ih =>
    by_cases hx : x = 0
    · subst hx
      simp [strlen] at h
      exact ⟨[], s, by simp, by simp, by simp [h]⟩
    · simp only [strlen, hx, if_false] at h
      cases hs : strlen s with
      | error e => simp [hs] at h
      | ok m =>
        simp [hs] at h
        obtain ⟨a, b, hab, ha, hl⟩ := ih m hs
        refine ⟨x :: a, b, by simp [hab], ?_, by simp [hl, h]⟩
        simp only [List.mem_cons, not_or]
        exact ⟨fun h0 => hx h0.symm, ha⟩

theorem strnlen_append (a b : List Nat) (n : Nat) (ha : 0 ∉ a) :
    strnlen (a ++ 0 :: b) n = .ok (min n a.length) := by
  induction a generalizing n with
  | nil => cases n <;> simp [strnlen]
  | cons x a ih =>
    have hx : x ≠ 0 := fun h => ha (by simp [h])
    have ha2 : 0 ∉ a := fun h => ha (by simp [h])
    cases n with
    | zero => simp [strnlen]
    | succ n => simp [strnlen, hx, ih n ha2, Nat.succ_min_succ]

theorem strnlen_ok_lt (rr : List Nat) (n m : Nat) (h : strnlen rr n = .ok m) (hm : m < n) :
    ∃ a b, rr = a ++ 0 :: b ∧ 0 ∉ a ∧ a.length = m := by
  induction rr generalizing n m with
  | nil =>
    cases n with
    | zero => omega
    | succ n => simp [strnlen] at h
  | cons x rr ih =>
    cases n with
    | zero => omega
    | succ n =>
      by_cases hx : x = 0
      · subst hx
        simp [strnlen] at h
        exact ⟨[], rr, by simp, by simp, by simp [h]⟩
      · simp only [strnlen, hx, if_false] at h
        cases hs : strnlen rr n with
        | error e => simp [hs] at h
        | ok k =>
          simp [hs] at h
          obtain ⟨a, b, hab, ha, hl⟩ := ih n k hs (by omega)
          refine ⟨x :: a, b, by simp [hab], ?_, by simp [hl, h]⟩
          simp only [List.mem_cons, not_or]
          exact ⟨fun h0 => hx h0.symm, ha⟩

theorem strnlen_nozero (rr : List Nat) (n : Nat) (hn : n ≤ rr.length)
    (hz : 0 ∉ rr.take n) : strnlen rr n = .ok n := by
  induction rr generalizing n with
  | nil =>
    have : n = 0 := by simpa using hn
    subst this
    simp [strnlen]
  | cons x rr ih =>
    cases n with
    | zero => simp [strnlen]
    | succ n =>
      have hx : x ≠ 0 := fun h => hz (by simp [h])
      have hz2 : 0 ∉ rr.take n := fun h => hz (by simp [h])
      have hn2 : n ≤ rr.length := by simpa using hn
      simp [strnlen, hx, ih n hn2 hz2]

theorem mem_split_first (rr : List Nat) (h : 0 ∈ rr) :
    ∃ a b, rr = a ++ 0 :: b ∧ 0 ∉ a := by
  induction rr with
  | nil => simp at h
  | cons x rr ih =>
    by_cases hx : x = 0
    · exact ⟨[], rr, by simp [hx], by simp⟩
    · have h2 : 0 ∈ rr := by
        rcases List.mem_cons.mp h with h0 | h0
        · exact absurd h0.symm hx
        · exact h0
      obtain ⟨a, b, hab, ha⟩ := ih h2
      refine ⟨x :: a, b, by simp [hab], ?_⟩
      simp only [List.mem_cons, not_or]
      exact ⟨fun h0 => hx h0.symm, ha⟩

theorem strnlen_readable (rr : List Nat) (n : Nat) (h : 0 ∈ rr ∨ n ≤ rr.length) :
    ∃ m, strnlen rr n = .ok m := by
  by_cases hz : 0 ∈ rr
  · obtain ⟨a, b, hab, ha⟩ := mem_split_first rr hz
    exact ⟨min n a.length, by rw [hab]; exact strnlen_append a b n ha⟩
  · have hn : n ≤ rr.length := by
      rcases h with h | h
      · exact absurd h hz
      · exact h
    exact ⟨n, strnlen_nozero rr n hn (fun hmem => hz (List.mem_of_mem_take hmem))⟩

/-! ## Facts about the validation loop -/

theorem wire_no_zero (ls : List (List Nat)) (h : ∀ l ∈ ls, LabelOk l) : 0 ∉ wire ls := by
  induction ls with
  | nil => simp [wire]
  | cons l ls ih =>
    have hl : LabelOk l := h l (by simp)
    have hls : ∀ l' ∈ ls, LabelOk l' := fun l' hl' => h l' (by simp [hl'])
    obtain ⟨h1, _, h3⟩ := hl
    simp only [wire, List.mem_cons, List.mem_append, not_or]
    exact ⟨by omega, h3, ih hls⟩

theorem drop_succ_of_drop_cons (rr : List Nat) (off x : Nat) (s : List Nat)
    (h : rr.drop off = x :: s) (k : Nat) : rr.drop (off + 1 + k) = s.drop k := by
  have h1 : rr.drop (off + 1 + k) = (rr.drop off).drop (1 + k) := by
    rw [List.drop_drop]
    congr 1
    omega
  rw [h1, h]
  simp [Nat.add_comm 1 k]

theorem validate_wire (rr : List Nat) (ls : List (List Nat)) (tail : List Nat)
    (fuel off : Nat) (hrr : rr.drop off = wire ls ++ 0 :: tail)
    (hls : ∀ l ∈ ls, LabelOk l) (hfuel : ls.length < fuel) :
    validate rr fuel off = .ok true := by
  induction ls generalizing fuel off with
  | nil =>
    cases fuel with
    | zero => simp at hfuel
    | succ fuel =>
      simp only [wire, List.nil_append] at hrr
      simp [validate, hrr]
  | cons l ls ih =>
    cases fuel with
    | zero => simp at hfuel
    | succ fuel =>
      have hl : LabelOk l := hls l (by simp)
      have hls2 : ∀ l' ∈ ls, LabelOk l' := fun l' hl' => hls l' (by simp [hl'])
      obtain ⟨h1, h2, h3⟩ := hl
      have hrr2 : rr.drop off = l.length :: (l ++ wire ls ++ 0 :: tail) := by
        simp [hrr, wire]
      have hd1 : rr.drop (off + 1) = l ++ wire ls ++ 0 :: tail := by
        have := drop_succ_of_drop_cons rr off _ _ hrr2 0
        simpa using this
      have hd2 : rr.drop (off + 1 + l.length) = wire ls ++ 0 :: tail := by
        have := drop_succ_of_drop_cons rr off _ _ hrr2 l.length
        rw [this, List.append_assoc, List.drop_left]
      have hz : 0 ∉ l ++ wire ls := by
        simp only [List.mem_append, not_or]
        exact ⟨h3, wire_no_zero ls hls2⟩
      have hs : strlen (rr.drop (off + 1)) = .ok (l ++ wire ls).length := by
        rw [hd1]
        exact strlen_append _ _ hz
      have hne : l.length ≠ 0 := by omega
      have h63 : ¬ l.length > 63 := by omega
      have hlt : ¬ (l ++ wire ls).length < l.length := by simp
      simp only [validate, hrr2, hne, h63, hs, hlt, if_false]
      exact ih fuel (off + 1 + l.length) hd2 hls2 (by simpa using hfuel)

theorem validate_true (rr : List Nat) (fuel off : Nat)
    (h : validate rr fuel off = .ok true) :
    ∃ ls tail, rr.drop off = wire ls ++ 0 :: tail ∧ ∀ l ∈ ls, LabelOk l := by
  induction fuel generalizing off with
  | zero => simp [validate] at h
  | succ fuel ih =>
    cases hd : rr.drop off with
    | nil => simp [validate, hd] at h
    | cons count s =>
      by_cases hc : count = 0
      · subst hc
        exact ⟨[], s, by simp [wire], by simp⟩
      · by_cases h63 : count > 63
        · simp [validate, hd, hc, h63] at h
        · have hd1 : rr.drop (off + 1) = s := by
            have := drop_succ_of_drop_cons rr off _ _ hd 0
            simpa using this
          cases hs : strlen s with
          | error e => simp [validate, hd, hc, h63, hd1, hs] at h
          | ok n =>
            by_cases hn : n < count
            · simp [validate, hd, hc, h63, hd1, hs, hn] at h
            · simp only [validate, hd, hc, h63, hd1, hs, hn, if_false] at h
              obtain ⟨ls, tail, hls, hok⟩ := ih (off + 1 + count) h
              obtain ⟨a, b, hab, ha, hal⟩ := strlen_ok s n hs
              have hd2 := drop_succ_of_drop_cons rr off _ _ hd count
              have hlen : count ≤ s.length := by
                rw [hab]
                simp
                omega
              have hsplit : s = s.take count ++ (wire ls ++ 0 :: tail) := by
                rw [← hls, hd2, List.take_append_drop]
              have htake : s.take count = a.take count := by
                rw [hab, List.take_append_of_le_length (by omega)]
              refine ⟨s.take count :: ls, tail, ?_, ?_⟩
              · have hl : (s.take count).length = count := by
                  simp [List.length_take, hlen]
                simp only [wire, hl]
                rw [List.cons_append, List.append_assoc, ← hsplit]
              · intro l hl
                rcases List.mem_cons.mp hl with hl | hl
                · subst hl
                  refine ⟨?_, ?_, ?_⟩
                  · simp [List.length_take]
                    omega
                  · simp [List.length_take]
                    omega
                  · rw [htake]
                    exact fun hmem => ha (List.mem_of_mem_take hmem)
                · exact hok l hl

theorem validate_total (rr : List Nat) (fuel off : Nat) (a b : List Nat)
    (hrr : rr.drop off = a ++ 0 :: b) (ha : 0 ∉ a) (hfuel : a.length < fuel) :
    ∃ r, validate rr fuel off = .ok r := by
  induction fuel generalizing off a with
  | zero => simp at hfuel
  | succ fuel ih =>
    cases a with
    | nil =>
      simp only [List.nil_append] at hrr
      exact ⟨true, by simp [validate, hrr]⟩
    | cons c a =>
      have hc : c ≠ 0 := fun h => ha (by simp [h])
      have ha2 : 0 ∉ a := fun h => ha (by simp [h])
      have hrr2 : rr.drop off = c :: (a ++ 0 :: b) := by simpa using hrr
      by_cases h63 : c > 63
      · exact ⟨false, by simp [validate, hrr2, hc, h63]⟩
      · have hd1 : rr.drop (off + 1) = a ++ 0 :: b := by
          have := drop_succ_of_drop_cons rr off _ _ hrr2 0
          simpa using this
        have hs : strlen (rr.drop (off + 1)) = .ok a.length := by
          rw [hd1]
          exact strlen_append a b ha2
        by_cases hn : a.length < c
        · exact ⟨false, by simp [validate, hrr2, hc, h63, hs, hn]⟩
        · have hd2 : rr.drop (off + 1 + c) = a.drop c ++ 0 :: b := by
            rw [drop_succ_of_drop_cons rr off _ _ hrr2 c,
              List.drop_append_of_le_length (by omega)]
          have ha3 : 0 ∉ a.drop c := fun h => ha2 (List.mem_of_mem_drop h)
          have hf : (a.drop c).length < fuel := by
            simp only [List.length_drop]
            simp only [List.length_cons] at hfuel
            omega
          obtain ⟨r, hr⟩ := ih (off + 1 + c) (a.drop c) hd2 ha3 hf
          exact ⟨r, by simp only [validate, hrr2, hc, h63, hs, hn, if_false]; exact hr⟩

theorem walk_wire (rr : List Nat) (ls : List (List Nat)) (tail : List Nat) (off p c : Nat)
    (hrr : rr.drop off = wire ls ++ 0 :: tail) (hls : ∀ l ∈ ls, LabelOk l)
    (hw : Walk rr off p) (hp : rr[p]? = some c) :
    c ≤ 63 ∧ (c ≠ 0 → p + 1 + c ≤ rr.length) := by
  induction ls generalizing off with
  | nil =>
    simp only [wire, List.nil_append] at hrr
    have h0 : rr[off]? = some 0 := by
      rw [← List.head?_drop, hrr]
      rfl
    cases hw with
    | here =>
      rw [h0] at hp
      have : c = 0 := by simpa using hp.symm
      subst this
      simp
    | step _ c2 _ hc2 hne _ =>
      rw [h0] at hc2
      exact absurd (by simpa using hc2.symm) hne
  | cons l ls ih =>
    have hl : LabelOk l := hls l (by simp)
    have hls2 : ∀ l' ∈ ls, LabelOk l' := fun l' hl' => hls l' (by simp [hl'])
    have hrr2 : rr.drop off = l.length :: (l ++ wire ls ++ 0 :: tail) := by
      simp [hrr, wire]
    have h0 : rr[off]? = some l.length := by
      rw [← List.head?_drop, hrr2]
      rfl
    have hd2 : rr.drop (off + 1 + l.length) = wire ls ++ 0 :: tail := by
      have := drop_succ_of_drop_cons rr off _ _ hrr2 l.length
      rw [this, List.append_assoc, List.drop_left]
    cases hw with
    | here =>
      rw [h0] at hp
      have hc : c = l.length := by simpa using hp.symm
      subst hc
      refine ⟨hl.2.1, fun _ => ?_⟩
      have hlen := congrArg List.length hrr2
      simp only [List.length_drop, List.length_cons, List.length_append] at hlen
      omega
    | step _ c2 _ hc2 hne hw2 =>
      rw [h0] at hc2
      have : c2 = l.length := by simpa using hc2.symm
      subst this
      exact ih (off + 1 + l.length) hd2 hls2 hw2

/-! ## Facts about the copy loop -/

theorem store_append (pre rest : List Nat) (v : Nat) :
    store (pre ++ rest) pre.length v =
      match rest with
      | [] => .error .write
      | _ :: rest1 => .ok (pre ++ v :: rest1) := by
  cases rest with
  | nil => simp [store]
  | cons x rest1 => simp [store]

theorem memcpy_append (pre rest l s : List Nat) :
    memcpy (pre ++ rest) pre.length (l ++ s) l.length =
      if rest.length < l.length then .error .write
      else .ok (pre ++ l ++ rest.drop l.length) := by
  by_cases h : rest.length < l.length
  · have h2 : pre.length + rest.length < pre.length + l.length := by omega
    simp [memcpy, h, h2]
  · have h2 : ¬ pre.length + rest.length < pre.length + l.length := by omega
    simp [memcpy, h, h2]

theorem wire_cons_append (l : List Nat) (ls : List (List Nat)) (t : List Nat) :
    wire (l :: ls) ++ t = l.length :: (l ++ (wire ls ++ t)) := by
  simp [wire]

theorem dotsAfter_cons_length (l : List Nat) (ls : List (List Nat)) :
    (dotsAfter (l :: ls)).length = 1 + l.length + (dotsAfter ls).length := by
  simp [dotsAfter]
  omega

theorem copy_loop_after (ls : List (List Nat)) (tail : List Nat) (fuel : Nat)
    (pre rest : List Nat) (hls : ∀ l ∈ ls, l ≠ []) (hfuel : ls.length < fuel)
    (hpre : pre ≠ []) :
    copy_loop fuel (wire ls ++ 0 :: tail) pre.length (pre ++ rest) =
      if (dotsAfter ls).length ≤ rest.length then
        .ok (pre.length + (dotsAfter ls).length,
          pre ++ dotsAfter ls ++ rest.drop (dotsAfter ls).length)
      else .error .write := by
  induction ls generalizing fuel pre rest with
  | nil =>
    cases fuel with
    | zero => simp at hfuel
    | succ fuel => simp [wire, dotsAfter, copy_loop]
  | cons l ls ih =>
    cases fuel with
    | zero => simp at hfuel
    | succ fuel =>
      have hl : l ≠ [] := hls l (by simp)
      have hls2 : ∀ l' ∈ ls, l' ≠ [] := fun l' hl' => hls l' (by simp [hl'])
      have hlen : l.length ≠ 0 := by
        intro h
        exact hl (List.length_eq_zero.mp h)
      have hoff : pre.length ≠ 0 := by
        intro h
        exact hpre (List.length_eq_zero.mp h)
      have hD := dotsAfter_cons_length l ls
      rw [wire_cons_append]
      simp only [copy_loop, hlen, hoff, if_false, ne_eq, not_false_eq_true, if_true]
      rw [store_append]
      cases rest with
      | nil =>
        have hno : ¬ (dotsAfter (l :: ls)).length ≤ ([] : List Nat).length := by
          rw [hD, List.length_nil]
          omega
        rw [if_neg hno]
      | cons x rest1 =>
        simp only []
        have hmc := memcpy_append (pre ++ [DOT]) rest1 l (wire ls ++ 0 :: tail)
        have hpl : (pre ++ [DOT]).length = pre.length + 1 := by simp
        rw [hpl] at hmc
        have hre : pre ++ DOT :: rest1 = (pre ++ [DOT]) ++ rest1 := by simp
        rw [hre, hmc]
        by_cases hfit : rest1.length < l.length
        · have hno : ¬ (dotsAfter (l :: ls)).length ≤ (x :: rest1).length := by
            rw [hD, List.length_cons]
            omega
          rw [if_pos hfit, if_neg hno]
        · rw [if_neg hfit]
          simp only [List.drop_left]
          have hih := ih fuel (pre ++ [DOT] ++ l) (rest1.drop l.length) hls2
            (by simpa using hfuel) (by simp)
          have hpl2 : (pre ++ [DOT] ++ l).length = pre.length + 1 + l.length := by
            simp
            omega
          rw [hpl2] at hih
          rw [hih]
          have hdl : (rest1.drop l.length).length = rest1.length - l.length :=
            List.length_drop _ _
          by_cases hfit2 : (dotsAfter ls).length ≤ (rest1.drop l.length).length
          · have hyes : (dotsAfter (l :: ls)).length ≤ (x :: rest1).length := by
              rw [hD, List.length_cons]
              omega
            rw [if_pos hfit2, if_pos hyes]
            have hdrop : (x :: rest1).drop (dotsAfter (l :: ls)).length =
                (rest1.drop l.length).drop (dotsAfter ls).length := by
              rw [hD, List.drop_drop]
              have : 1 + l.length + (dotsAfter ls).length =
                  (l.length + (dotsAfter ls).length) + 1 := by omega
              rw [this, List.drop_succ_cons]
            rw [hdrop]
            congr 1
            refine Prod.ext ?_ ?_
            · simp only [hD]
              omega
            · simp [dotsAfter]
          · have hno : ¬ (dotsAfter (l :: ls)).length ≤ (x :: rest1).length := by
              rw [hD, List.length_cons]
              omega
            rw [if_neg hfit2, if_neg hno]

theorem copy_loop_wire (ls : List (List Nat)) (tail : List Nat) (fuel : Nat)
    (out : List Nat) (hls : ∀ l ∈ ls, l ≠ []) (hfuel : ls.length < fuel) :
    copy_loop fuel (wire ls ++ 0 :: tail) 0 out =
      if (dotted ls).length ≤ out.length then
        .ok ((dotted ls).length, dotted ls ++ out.drop (dotted ls).length)
      else .error .write := by
  cases ls with
  | nil =>
    cases fuel with
    | zero => simp at hfuel
    | succ fuel => simp [wire, dotted, copy_loop]
  | cons l ls =>
    cases fuel with
    | zero => simp at hfuel
    | succ fuel =>
      have hl : l ≠ [] := hls l (by simp)
      have hls2 : ∀ l' ∈ ls, l' ≠ [] := fun l' hl' => hls l' (by simp [hl'])
      have hlen : l.length ≠ 0 := by
        intro h
        exact hl (List.length_eq_zero.mp h)
      have hD : (dotted (l :: ls)).length = l.length + (dotsAfter ls).length := by
        simp [dotted]
      rw [wire_cons_append]
      simp only [copy_loop, hlen, if_false, ne_eq, not_true_eq_false]
      have hmc := memcpy_append [] out l (wire ls ++ 0 :: tail)
      simp only [List.nil_append, List.length_nil] at hmc
      rw [hmc]
      have hdl : (out.drop l.length).length = out.length - l.length :=
        List.length_drop _ _
      by_cases hfit : out.length < l.length
      · have hno : ¬ (dotted (l :: ls)).length ≤ out.length := by
          rw [hD]
          omega
        rw [if_pos hfit, if_neg hno]
      · rw [if_neg hfit]
        simp only [List.drop_left, Nat.zero_add]
        rw [copy_loop_after ls tail fuel l (out.drop l.length) hls2
          (by simpa using hfuel) hl]
        by_cases hfit2 : (dotsAfter ls).length ≤ (out.drop l.length).length
        · have hyes : (dotted (l :: ls)).length ≤ out.length := by
            rw [hD]
            omega
          rw [if_pos hfit2, if_pos hyes]
          have hdrop : out.drop (dotted (l :: ls)).length =
              (out.drop l.length).drop (dotsAfter ls).length := by
            rw [hD, List.drop_drop]
          rw [hdrop]
          congr 1
          refine Prod.ext ?_ ?_
          · simp only [hD]
          · simp [dotted]
        · have hno : ¬ (dotted (l :: ls)).length ≤ out.length := by
            rw [hD]
            omega
          rw [if_neg hfit2, if_neg hno]

/-! ## Facts about rrlabels_tostr -/

theorem clamp_eq_min (left : Nat) : (if left > 253 then 253 else left) = min left 253 := by
  split <;> omega

theorem length_le_wire_length (ls : List (List Nat)) : ls.length ≤ (wire ls).length := by
  induction ls with
  | nil => simp
  | cons l ls ih =>
    simp only [wire, List.length_cons, List.length_append]
    omega

theorem wire_length (ls : List (List Nat)) (hls : ∀ l ∈ ls, l ≠ []) :
    (wire ls).length = if ls = [] then 0 else (dotted ls).length + 1 := by
  cases ls with
  | nil => simp [wire]
  | cons l ls =>
    have key : ∀ ks : List (List Nat), (wire ks).length = (dotsAfter ks).length := by
      intro ks
      induction ks with
      | nil => simp [wire, dotsAfter]
      | cons k ks ih => simp [wire, dotsAfter, ih]
    simp [wire, dotted, key ls]

theorem labelOk_ne_nil (ls : List (List Nat)) (hls : ∀ l ∈ ls, LabelOk l) :
    ∀ l ∈ ls, l ≠ [] := by
  intro l hl hnil
  have := (hls l hl).1
  rw [hnil] at this
  simp at this

/-- What `rrlabels_tostr` does on a terminated sequence of good labels that
fits in the clamped capacity. -/
theorem rrlabels_tostr_wire (out : List Nat) (ls : List (List Nat)) (tail : List Nat)
    (left : Nat) (hls : ∀ l ∈ ls, LabelOk l)
    (hfit : (wire ls).length + 1 ≤ min left 253) :
    rrlabels_tostr out (wire ls ++ 0 :: tail) left =
      if (dotted ls).length < out.length then
        .ok (((dotted ls).length : Int),
          dotted ls ++ 0 :: out.drop ((dotted ls).length + 1))
      else .error .write := by
  have hleft : left ≠ 0 := by omega
  have hz := wire_no_zero ls hls
  have hne := labelOk_ne_nil ls hls
  have hsn : strnlen (wire ls ++ 0 :: tail) (min left 253) = .ok (wire ls).length := by
    rw [strnlen_append _ _ _ hz]
    congr 1
    omega
  have hnot : ¬ (wire ls).length > min left 253 - 1 := by omega
  have hfuel : ls.length < (wire ls ++ 0 :: tail).length + 1 := by
    have := length_le_wire_length ls
    simp only [List.length_append, List.length_cons]
    omega
  have hv : validate (wire ls ++ 0 :: tail) ((wire ls ++ 0 :: tail).length + 1) 0 = .ok true :=
    validate_wire _ ls tail _ 0 (by simp) hls hfuel
  have hc := copy_loop_wire ls tail ((wire ls ++ 0 :: tail).length + 1) out hne hfuel
  unfold rrlabels_tostr
  simp only [hleft, if_false, clamp_eq_min, hsn, hnot, hv, hc]
  by_cases hd : (dotted ls).length ≤ out.length
  · rw [if_pos hd]
    simp only []
    rw [store_append]
    by_cases hd2 : (dotted ls).length < out.length
    · rw [if_pos hd2]
      have hcons : out.drop (dotted ls).length =
          out[(dotted ls).length] :: out.drop ((dotted ls).length + 1) :=
        List.drop_eq_getElem_cons hd2
      rw [hcons]
    · rw [if_neg hd2]
      have hnil : out.drop (dotted ls).length = [] :=
        List.drop_eq_nil_iff.mpr (by omega)
      rw [hnil]
  · have hd2 : ¬ (dotted ls).length < out.length := by omega
    rw [if_neg hd, if_neg hd2]

/-- A terminated sequence of good labels that does not fit in the clamped
capacity is refused. -/
theorem rrlabels_tostr_wire_reject (out : List Nat) (ls : List (List Nat))
    (tail : List Nat) (left : Nat) (hls : ∀ l ∈ ls, LabelOk l)
    (hfit : min left 253 < (wire ls).length + 1) :
    rrlabels_tostr out (wire ls ++ 0 :: tail) left = .ok (-1, out) := by
  by_cases hleft : left = 0
  · simp [rrlabels_tostr, hleft]
  · have hz := wire_no_zero ls hls
    have hsn : strnlen (wire ls ++ 0 :: tail) (min left 253) = .ok (min left 253) := by
      rw [strnlen_append _ _ _ hz]
      congr 1
      omega
    have hgt : min left 253 > min left 253 - 1 := by omega
    unfold rrlabels_tostr
    simp only [hleft, if_false, clamp_eq_min, hsn, hgt, if_true]

/-- The path through `rrlabels_tostr` that ends in a non-negative return
value. -/
theorem rrlabels_tostr_accept (out rr : List Nat) (left : Nat) (n : Int) (out1 : List Nat)
    (h : rrlabels_tostr out rr left = .ok (n, out1)) (hn : 0 ≤ n) :
    left ≠ 0 ∧ ∃ ls tail, rr = wire ls ++ 0 :: tail ∧ (∀ l ∈ ls, LabelOk l) ∧
      (wire ls).length + 1 ≤ min left 253 := by
  by_cases hleft : left = 0
  · simp [rrlabels_tostr, hleft] at h
    omega
  · refine ⟨hleft, ?_⟩
    have h0 := h
    unfold rrlabels_tostr at h
    simp only [hleft, if_false, clamp_eq_min] at h
    cases hs : strnlen rr (min left 253) with
    | error e => simp [hs] at h
    | ok m =>
      simp only [hs] at h
      by_cases hm : m > min left 253 - 1
      · simp [hm] at h
        omega
      · simp only [hm, if_false] at h
        cases hv : validate rr (rr.length + 1) 0 with
        | error e => simp [hv] at h
        | ok b =>
          cases b with
          | false =>
            simp [hv] at h
            omega
          | true =>
            obtain ⟨ls, tail, hrr, hls⟩ := validate_true rr _ 0 hv
            simp only [List.drop_zero] at hrr
            refine ⟨ls, tail, hrr, hls, ?_⟩
            by_contra hbig
            have := rrlabels_tostr_wire_reject out ls tail left hls (by omega)
            rw [← hrr, h0] at this
            have hneg : n = -1 := by
              injection this with h1
              exact congrArg Prod.fst h1
            omega

/-! ## The shape of every run of rrlabels_tostr -/

theorem strnlen_error (rr : List Nat) (n : Nat) (e : Fault) (h : strnlen rr n = .error e) :
    e = .read := by
  induction rr generalizing n e with
  | nil =>
    cases n with
    | zero => simp [strnlen] at h
    | succ n =>
      simp [strnlen] at h
      exact h.symm
  | cons x rr ih =>
    cases n with
    | zero => simp [strnlen] at h
    | succ n =>
      by_cases hx : x = 0
      · simp [strnlen, hx] at h
      · simp only [strnlen, hx, if_false] at h
        cases hs : strnlen rr n with
        | error e2 =>
          simp [hs] at h
          rw [← h]
          exact ih n e2 hs
        | ok k => simp [hs] at h

/-- Every run of `rrlabels_tostr` either refuses and leaves `out` alone, or
reads past the end of a buffer that is not `Readable`, or is given a
terminated sequence of good labels that fits in the clamped capacity. -/
theorem rrlabels_tostr_cases (out rr : List Nat) (left : Nat) :
    rrlabels_tostr out rr left = .ok (-1, out) ∨
    (rrlabels_tostr out rr left = .error .read ∧ ¬ Readable rr left) ∨
    (∃ ls tail, rr = wire ls ++ 0 :: tail ∧ (∀ l ∈ ls, LabelOk l) ∧
      (wire ls).length + 1 ≤ min left 253) := by
  by_cases hleft : left = 0
  · left
    simp [rrlabels_tostr, hleft]
  · cases hs : strnlen rr (min left 253) with
    | error e =>
      right
      left
      have he := strnlen_error rr _ e hs
      subst he
      refine ⟨?_, ?_⟩
      · unfold rrlabels_tostr
        simp only [hleft, if_false, clamp_eq_min, hs]
      · intro hr
        obtain ⟨m, hm⟩ := strnlen_readable rr (min left 253) hr
        rw [hs] at hm
        cases hm
    | ok m =>
      by_cases hm : m > min left 253 - 1
      · left
        unfold rrlabels_tostr
        simp only [hleft, if_false, clamp_eq_min, hs, hm, if_true]
      · obtain ⟨a, b, hab, ha, hal⟩ := strnlen_ok_lt rr _ m hs (by omega)
        obtain ⟨r, hr⟩ := validate_total rr (rr.length + 1) 0 a b (by simpa using hab) ha
          (by rw [hab]; simp; omega)
        cases r with
        | false =>
          left
          unfold rrlabels_tostr
          simp only [hleft, if_false, clamp_eq_min, hs, hm, hr]
        | true =>
          right
          right
          obtain ⟨ls, tail, hrr, hls⟩ := validate_true rr _ 0 hr
          simp only [List.drop_zero] at hrr
          refine ⟨ls, tail, hrr, hls, ?_⟩
          have hs2 := strnlen_append (wire ls) tail (min left 253) (wire_no_zero ls hls)
          rw [← hrr, hs] at hs2
          injection hs2 with hs2
          omega

theorem wire_inj (ls ks : List (List Nat)) (t u : List Nat)
    (hls : ∀ l ∈ ls, l ≠ []) (hks : ∀ l ∈ ks, l ≠ [])
    (h : wire ls ++ 0 :: t = wire ks ++ 0 :: u) : ls = ks := by
  induction ls generalizing ks with
  | nil =>
    cases ks with
    | nil => rfl
    | cons k ks =>
      have hk : k ≠ [] := hks k (by simp)
      simp [wire] at h
      exact absurd (List.length_eq_zero.mp h.1.symm) hk
  | cons l ls ih =>
    have hl : l ≠ [] := hls l (by simp)
    cases ks with
    | nil =>
      simp [wire] at h
      exact absurd h.1 hl
    | cons k ks =>
      simp only [wire, List.cons_append, List.cons.injEq, List.append_assoc] at h
      obtain ⟨hlen, happ⟩ := h
      obtain ⟨h1, h2⟩ := List.append_inj happ hlen
      subst h1
      have := ih ks (fun l' hl' => hls l' (by simp [hl']))
        (fun l' hl' => hks l' (by simp [hl'])) h2
      rw [this]

theorem dotted_eq_intercalate (ls : List (List Nat)) :
    dotted ls = [DOT].intercalate ls := by
  cases ls with
  | nil => simp [dotted, List.intercalate]
  | cons l ls =>
    induction ls generalizing l with
    | nil => simp [dotted, dotsAfter, List.intercalate]
    | cons k ks ih =>
      have := ih k
      simp only [dotted, dotsAfter, List.intercalate, List.intersperse, List.flatten] at this ⊢
      rw [← this]
      simp

theorem dotted_length (ls : List (List Nat)) :
    (dotted ls).length = (ls.map List.length).sum + (ls.length - 1) := by
  cases ls with
  | nil => simp [dotted]
  | cons l ls =>
    have key : ∀ ks : List (List Nat),
        (dotsAfter ks).length = (ks.map List.length).sum + ks.length := by
      intro ks
      induction ks with
      | nil => simp [dotsAfter]
      | cons k ks ih =>
        simp [dotsAfter, ih]
        omega
    simp [dotted, key ls]
    omega

theorem pieces_dotted (ls : List (List Nat)) (hne : ∀ l ∈ ls, l ≠ [])
    (hdot : ∀ l ∈ ls, DOT ∉ l) : pieces (dotted ls) = ls := by
  cases ls with
  | nil => simp [pieces, dotted]
  | cons l ls =>
    have hl : l ≠ [] := hne l (by simp)
    have hd : dotted (l :: ls) ≠ [] := by
      simp [dotted, hl]
    unfold pieces
    rw [if_neg hd, dotted_eq_intercalate]
    exact List.splitOn_intercalate (l :: ls) DOT hdot (by simp)

/-- The value of an accepting run of `rrlabels_tostr`. -/
theorem rrlabels_tostr_accept_value (out rr : List Nat) (left : Nat) (n : Int)
    (out1 : List Nat) (h : rrlabels_tostr out rr left = .ok (n, out1)) (hn : 0 ≤ n) :
    ∃ ls tail, rr = wire ls ++ 0 :: tail ∧ (∀ l ∈ ls, LabelOk l) ∧
      (wire ls).length + 1 ≤ min left 253 ∧ (dotted ls).length < out.length ∧
      n = ((dotted ls).length : Int) ∧
      out1 = dotted ls ++ 0 :: out.drop ((dotted ls).length + 1) := by
  obtain ⟨_, ls, tail, hrr, hls, hfit⟩ := rrlabels_tostr_accept out rr left n out1 h hn
  have hw := rrlabels_tostr_wire out ls tail left hls hfit
  rw [← hrr, h] at hw
  by_cases hd : (dotted ls).length < out.length
  · rw [if_pos hd] at hw
    injection hw with hw
    have h1 := congrArg Prod.fst hw
    have h2 := congrArg Prod.snd hw
    exact ⟨ls, tail, hrr, hls, hfit, hd, h1, h2⟩
  · rw [if_neg hd] at hw
    cases hw

theorem dotted_succ_le_wire (ls : List (List Nat)) (hls : ∀ l ∈ ls, l ≠ []) :
    (dotted ls).length ≤ (wire ls).length := by
  rw [wire_length ls hls]
  split
  · next h => simp [h, dotted]
  · omega

/-- The loops of `rrlabels_tostr` always finish: no run ends out of fuel. -/
theorem rrlabels_tostr_total (out rr : List Nat) (left : Nat) :
    rrlabels_tostr out rr left ≠ .error .fuel := by
  rcases rrlabels_tostr_cases out rr left with hc | ⟨hc, _⟩ | ⟨ls, tail, hrr, hls, hfit⟩
  · rw [hc]
    simp
  · rw [hc]
    simp
  · have hw := rrlabels_tostr_wire out ls tail left hls hfit
    rw [← hrr] at hw
    rw [hw]
    split <;> simp

/-! ## Claims about rrlabels_tostr -/

/-- C1, as stated, fails: the function is given no length for `rr`, and on a
buffer without a zero byte that is shorter than `min(left, 253)` bytes the scan
`strnlen(rr, left)` runs past the end of the buffer (undefined behaviour, here
the fault `Fault.read`) instead of returning -1.  This happens in case (b)
(`[1]a` with capacity 5), in case (c) (`[64]a` with capacity 253) and in case (d)
(`[5]ab` with capacity 253). -/
theorem rrlabels_tostr_unterminated_counterexample :
    (0 ∉ ([1, 97] : List Nat).take (min 5 253) ∧ ¬ Readable [1, 97] 5 ∧
      rrlabels_tostr [7, 7, 7, 7, 7] [1, 97] 5 = .error .read ∧
      rrlabels_tostr [7, 7, 7, 7, 7] [1, 97] 5 ≠ .ok (-1, [7, 7, 7, 7, 7])) ∧
    ((∃ p c, Walk [64, 97] 0 p ∧ ([64, 97] : List Nat)[p]? = some c ∧ 63 < c) ∧
      ¬ Readable [64, 97] 253 ∧
      rrlabels_tostr (List.replicate 253 7) [64, 97] 253 = .error .read ∧
      rrlabels_tostr (List.replicate 253 7) [64, 97] 253 ≠ .ok (-1, List.replicate 253 7)) ∧
    ((∃ p c, Walk [5, 97, 98] 0 p ∧ ([5, 97, 98] : List Nat)[p]? = some c ∧ c ≠ 0 ∧
        ([5, 97, 98] : List Nat).length < p + 1 + c) ∧
      ¬ Readable [5, 97, 98] 253 ∧
      rrlabels_tostr (List.replicate 253 7) [5, 97, 98] 253 = .error .read ∧
      rrlabels_tostr (List.replicate 253 7) [5, 97, 98] 253 ≠ .ok (-1, List.replicate 253 7)) := by
  have e1 : rrlabels_tostr [7, 7, 7, 7, 7] [1, 97] 5 = .error .read := rfl
  have e2 : rrlabels_tostr (List.replicate 253 7) [64, 97] 253 = .error .read := rfl
  have e3 : rrlabels_tostr (List.replicate 253 7) [5, 97, 98] 253 = .error .read := rfl
  refine ⟨⟨by decide, by decide, e1, ?_⟩, ⟨⟨0, 64, Walk.here 0, rfl, by decide⟩, by decide, e2, ?_⟩,
    ⟨⟨0, 5, Walk.here 0, rfl, by decide, by decide⟩, by decide, e3, ?_⟩⟩
  · rw [e1]
    intro h
    cases h
  · rw [e2]
    intro h
    cases h
  · rw [e3]
    intro h
    cases h

/-- C1, amended: for every raw buffer `rr` that holds a zero byte or at least
`min(left, 253)` bytes (so that `strnlen(rr, left)` stays inside the buffer) and
every capacity `left`, `rrlabels_tostr` returns -1 and hands back the output
buffer exactly as it was given whenever (a) `left` is 0, or (b) `rr` has no zero
byte within its first `min(left, 253)` bytes, or (c) the label walk meets a
length byte greater than 63, or (d) the label walk meets a length byte whose
span is longer than the bytes that remain before the end of the buffer. -/
theorem rrlabels_tostr_reject_untouched (out rr : List Nat) (left : Nat)
    (hread : Readable rr left)
    (h : left = 0 ∨
      0 ∉ rr.take (min left 253) ∨
      (∃ p c, Walk rr 0 p ∧ rr[p]? = some c ∧ 63 < c) ∨
      (∃ p c, Walk rr 0 p ∧ rr[p]? = some c ∧ c ≠ 0 ∧ rr.length < p + 1 + c)) :
    rrlabels_tostr out rr left = .ok (-1, out) := by
  rcases rrlabels_tostr_cases out rr left with hc | ⟨_, hc⟩ | ⟨ls, tail, hrr, hls, hfit⟩
  · exact hc
  · exact absurd hread hc
  · exfalso
    rcases h with h | h | ⟨p, c, hw, hp, hc⟩ | ⟨p, c, hw, hp, hc, hlen⟩
    · subst h
      simp at hfit
    · apply h
      rw [hrr, List.take_append_eq_append_take]
      have : min left 253 - (wire ls).length = (min left 253 - (wire ls).length - 1) + 1 := by
        omega
      rw [this, List.take_succ_cons]
      simp
    · have := (walk_wire rr ls tail 0 p c (by simpa using hrr) hls hw hp).1
      omega
    · have := (walk_wire rr ls tail 0 p c (by simpa using hrr) hls hw hp).2 hc
      omega

/-- A use of amended C1 on a concrete buffer: the first length byte is 64. -/
theorem rrlabels_tostr_reject_untouched_witness :
    Readable [64, 1, 0] 3 ∧ rrlabels_tostr [7, 7, 7] [64, 1, 0] 3 = .ok (-1, [7, 7, 7]) :=
  ⟨Or.inl (by decide),
    rrlabels_tostr_reject_untouched [7, 7, 7] [64, 1, 0] 3 (Or.inl (by decide))
      (Or.inr (Or.inr (Or.inl ⟨0, 64, Walk.here 0, rfl, by decide⟩)))⟩

/-- C2: whenever `rrlabels_tostr` returns `n ≥ 0`, `n + 1 ≤ min(left, 253)`:
the decoded name and its terminating NUL fit in the declared capacity.  So on
an output buffer of at least `left` bytes no run makes a write past the end of
the buffer (not even when the buffer has exactly `left` bytes), the buffer
keeps its length and every byte at an index `≥ left` keeps its value. -/
theorem rrlabels_tostr_within_capacity (out rr : List Nat) (left : Nat) :
    (∀ n out1, rrlabels_tostr out rr left = .ok (n, out1) → 0 ≤ n →
      n + 1 ≤ ((min left 253 : Nat) : Int)) ∧
    (left ≤ out.length →
      rrlabels_tostr out rr left ≠ .error .write ∧
      ∀ n out1, rrlabels_tostr out rr left = .ok (n, out1) →
        out1.length = out.length ∧ out1.drop left = out.drop left) := by
  refine ⟨?_, ?_⟩
  · intro n out1 h hn
    obtain ⟨ls, tail, _, hls, hfit, _, hnd, _⟩ :=
      rrlabels_tostr_accept_value out rr left n out1 h hn
    have := dotted_succ_le_wire ls (labelOk_ne_nil ls hls)
    omega
  · intro hcap
    rcases rrlabels_tostr_cases out rr left with hc | ⟨hc, _⟩ | ⟨ls, tail, hrr, hls, hfit⟩
    · rw [hc]
      refine ⟨by simp, ?_⟩
      intro n out1 h
      injection h with h
      have := congrArg Prod.snd h
      simp only at this
      subst this
      exact ⟨rfl, rfl⟩
    · rw [hc]
      refine ⟨by simp, ?_⟩
      intro n out1 h
      cases h
    · have hd := dotted_succ_le_wire ls (labelOk_ne_nil ls hls)
      have hlt : (dotted ls).length < out.length := by omega
      have hw := rrlabels_tostr_wire out ls tail left hls hfit
      rw [if_pos hlt, ← hrr] at hw
      rw [hw]
      refine ⟨by simp, ?_⟩
      intro n out1 h
      injection h with h
      have := congrArg Prod.snd h
      simp only at this
      subst this
      refine ⟨?_, ?_⟩
      · simp only [List.length_append, List.length_cons, List.length_drop]
        omega
      · have hsplit : left = ((dotted ls).length + 1) + (left - ((dotted ls).length + 1)) := by
          omega
        have hpre : dotted ls ++ 0 :: out.drop ((dotted ls).length + 1) =
            (dotted ls ++ [0]) ++ out.drop ((dotted ls).length + 1) := by simp
        have hlen : (dotted ls ++ [0]).length = (dotted ls).length + 1 := by simp
        rw [hpre]
        conv_lhs => rw [hsplit, ← hlen, List.drop_append, List.drop_drop]
        congr 1
        omega

/-- A use of C2 on a concrete buffer: `[1]a[0]` with capacity 3. -/
theorem rrlabels_tostr_within_capacity_witness :
    rrlabels_tostr [7, 7, 7] [1, 97, 0] 3 = .ok (1, [97, 0, 7]) ∧
    ((1 : Int) + 1 ≤ ((min 3 253 : Nat) : Int)) ∧
    rrlabels_tostr [7, 7, 7] [1, 97, 0] 3 ≠ .error .write :=
  ⟨rfl,
    (rrlabels_tostr_within_capacity [7, 7, 7] [1, 97, 0] 3).1 1 [97, 0, 7] rfl (by decide),
    ((rrlabels_tostr_within_capacity [7, 7, 7] [1, 97, 0] 3).2 (by decide)).1⟩

/-- C3: when `rrlabels_tostr` accepts the label sequence
`[len1]l1 ... [lenk]lk [0]`, the output buffer starts with `l1 '.' l2 ... '.' lk`
followed by one NUL (the rest of the buffer is as before) and the return value
is the length of that dotted name, `len1 + ... + lenk + (k - 1)` (0 for
`k = 0`).  `[3]www[7]example[3]com[0]` decodes to `"www.example.com"` with
return value 15 (shown with capacity 17), and a buffer that starts with a zero byte decodes to the empty
string with return value 0 for every capacity `≥ 1`. -/
theorem rrlabels_tostr_dotted :
    (∀ (out : List Nat) (ls : List (List Nat)) (tail : List Nat) (left : Nat) (n : Int)
        (out1 : List Nat), (∀ l ∈ ls, l ≠ []) →
      rrlabels_tostr out (wire ls ++ 0 :: tail) left = .ok (n, out1) → 0 ≤ n →
      out1 = dotted ls ++ 0 :: out.drop ((dotted ls).length + 1) ∧
      dotted ls = [DOT].intercalate ls ∧
      n = ((dotted ls).length : Int) ∧
      (dotted ls).length = (ls.map List.length).sum + (ls.length - 1)) ∧
    rrlabels_tostr (List.replicate 17 7)
      [3, 119, 119, 119, 7, 101, 120, 97, 109, 112, 108, 101, 3, 99, 111, 109, 0] 17 =
      .ok (15, [119, 119, 119, 46, 101, 120, 97, 109, 112, 108, 101, 46, 99, 111, 109, 0, 7]) ∧
    (∀ (out tail : List Nat) (left : Nat), 1 ≤ left → left ≤ out.length →
      rrlabels_tostr out (0 :: tail) left = .ok (0, 0 :: out.drop 1)) := by
  refine ⟨?_, ?_, ?_⟩
  · intro out ls tail left n out1 hne h hn
    obtain ⟨ks, tail2, hrr, hks, _, _, hnd, hout⟩ :=
      rrlabels_tostr_accept_value out _ left n out1 h hn
    have hls : ls = ks := wire_inj ls ks tail tail2 hne (labelOk_ne_nil ks hks) hrr
    subst hls
    exact ⟨hout, dotted_eq_intercalate ls, hnd, dotted_length ls⟩
  · rfl
  · intro out tail left hleft hcap
    have hw := rrlabels_tostr_wire out [] tail left (by simp) (by simp [wire]; omega)
    simp only [wire, dotted, List.nil_append, List.length_nil] at hw
    rw [hw, if_pos (by omega)]
    rfl

/-- A use of C3 on a concrete buffer: `[2]ab[1]c[0]` followed by two stray
bytes decodes to `"ab.c"`. -/
theorem rrlabels_tostr_dotted_witness :
    rrlabels_tostr [7, 7, 7, 7, 7, 7, 7] (wire [[97, 98], [99]] ++ 0 :: [5, 5]) 7 =
      .ok (4, [97, 98, 46, 99, 0, 7, 7]) ∧
    [97, 98, 46, 99, 0, 7, 7] =
      dotted [[97, 98], [99]] ++ 0 :: [7, 7, 7, 7, 7, 7, 7].drop ((dotted [[97, 98], [99]]).length + 1) :=
  ⟨rfl, (rrlabels_tostr_dotted.1 [7, 7, 7, 7, 7, 7, 7] [[97, 98], [99]] [5, 5] 7 4
    [97, 98, 46, 99, 0, 7, 7] (by decide) rfl (by decide)).1⟩

set_option maxRecDepth 100000 in
/-- C4, as stated, fails: with capacity 253 the one-label sequence `[1][0x00][0]`
(a label of length 1 whose byte is zero) is refused, and the one-label sequence
`[1]['.'][0]` is decoded to `"."`, whose re-encoding is `[0][0][0]`. -/
theorem rrlabels_tostr_roundtrip_counterexample :
    ((∀ l ∈ [[0]], 1 ≤ l.length ∧ l.length ≤ 63) ∧ (wire [[0]] ++ [0]).length ≤ 253 ∧
      rrlabels_tostr (List.replicate 253 7) (wire [[0]] ++ [0]) 253 =
        .ok (-1, List.replicate 253 7)) ∧
    ((∀ l ∈ [[DOT]], 1 ≤ l.length ∧ l.length ≤ 63) ∧ (wire [[DOT]] ++ [0]).length ≤ 253 ∧
      rrlabels_tostr (List.replicate 253 7) (wire [[DOT]] ++ [0]) 253 =
        .ok (1, DOT :: 0 :: List.replicate 251 7) ∧
      reencode ((DOT :: 0 :: List.replicate 251 7).take 1) = [0, 0, 0] ∧
      reencode ((DOT :: 0 :: List.replicate 251 7).take 1) ≠ wire [[DOT]] ++ [0]) := by
  refine ⟨⟨by decide, by decide, ?_⟩, by decide, by decide, ?_, ?_, ?_⟩
  · rfl
  · rfl
  · rfl
  · decide

/-- C4, amended: for every label sequence in which each label has length in
`[1,63]` and holds neither a zero byte nor a `'.'` byte, whose encoded form
with its terminating zero-length label is at most 253 bytes long, and for
every capacity `≥ 253` of an output buffer that has that many bytes,
`rrlabels_tostr` succeeds, and re-encoding the decoded name (split on `'.'`,
length byte in front of each piece, zero byte at the end) gives back the
original bytes. -/
theorem rrlabels_tostr_roundtrip (out : List Nat) (ls : List (List Nat)) (left : Nat)
    (hls : ∀ l ∈ ls, 1 ≤ l.length ∧ l.length ≤ 63 ∧ 0 ∉ l ∧ DOT ∉ l)
    (hlen : (wire ls ++ [0]).length ≤ 253) (hleft : 253 ≤ left)
    (hcap : left ≤ out.length) :
    ∃ (n : Nat) (out1 : List Nat),
      rrlabels_tostr out (wire ls ++ [0]) left = .ok ((n : Int), out1) ∧
      reencode (out1.take n) = wire ls ++ [0] := by
  have hok : ∀ l ∈ ls, LabelOk l := fun l hl => ⟨(hls l hl).1, (hls l hl).2.1, (hls l hl).2.2.1⟩
  have hne := labelOk_ne_nil ls hok
  have hd := dotted_succ_le_wire ls hne
  simp only [List.length_append, List.length_singleton] at hlen
  have hw := rrlabels_tostr_wire out ls [] left hok (by omega)
  rw [if_pos (by omega)] at hw
  refine ⟨(dotted ls).length, _, hw, ?_⟩
  rw [List.take_left]
  unfold reencode
  rw [pieces_dotted ls hne (fun l hl => (hls l hl).2.2.2)]

/-- A use of amended C4 on `[2]ab[1]c[0]` with capacity 253. -/
theorem rrlabels_tostr_roundtrip_witness :
    ∃ (n : Nat) (out1 : List Nat),
      rrlabels_tostr (List.replicate 253 7) (wire [[97, 98], [99]] ++ [0]) 253 =
        .ok ((n : Int), out1) ∧
      reencode (out1.take n) = wire [[97, 98], [99]] ++ [0] :=
  rrlabels_tostr_roundtrip (List.replicate 253 7) [[97, 98], [99]] 253 (by decide)
    (by decide) (by decide) (List.length_replicate 253 7).ge

set_option maxRecDepth 100000 in
/-- C5, as stated, fails: `[1]a[0]` has the dotted form `"a"` of length 1, yet
with capacity 2 (room for `"a"` and its NUL) the result is -1; a name of dotted
length 252 is refused with capacity 254; and `[1][0x00][0]` is refused with
capacity 3. -/
theorem rrlabels_tostr_exact_fit_counterexample :
    ((∀ l ∈ [[97]], 1 ≤ l.length ∧ l.length ≤ 63) ∧ (dotted [[97]]).length = 1 ∧
      rrlabels_tostr [7, 7] (wire [[97]] ++ [0]) 2 = .ok (-1, [7, 7])) ∧
    ((dotted [List.replicate 63 97, List.replicate 63 97, List.replicate 63 97,
        List.replicate 60 97]).length = 252 ∧
      rrlabels_tostr (List.replicate 254 7)
        (wire [List.replicate 63 97, List.replicate 63 97, List.replicate 63 97,
          List.replicate 60 97] ++ [0]) 254 = .ok (-1, List.replicate 254 7)) ∧
    ((dotted [[0]]).length = 1 ∧
      rrlabels_tostr [7, 7, 7] (wire [[0]] ++ [0]) 3 = .ok (-1, [7, 7, 7])) := by
  refine ⟨⟨by decide, rfl, rfl⟩, ⟨rfl, ?_⟩, ⟨rfl, rfl⟩⟩
  rfl

/-- C5, amended: for every label sequence in which each label has length in
`[1,63]` and holds no zero byte, terminated by a zero-length label, whose
encoded form with that terminator (`d + 2` bytes for a non-empty name of
dotted length `d`, 1 byte for the empty name) is at most `min(left, 253)` bytes
long, `rrlabels_tostr` on an output buffer of at least `left` bytes returns
`d`. -/
theorem rrlabels_tostr_returns_length (out : List Nat) (ls : List (List Nat))
    (tail : List Nat) (left : Nat) (hls : ∀ l ∈ ls, LabelOk l)
    (hfit : (wire ls ++ [0]).length ≤ min left 253) (hcap : left ≤ out.length) :
    (ls ≠ [] → (wire ls ++ [0]).length = (dotted ls).length + 2) ∧
    ∃ out1, rrlabels_tostr out (wire ls ++ 0 :: tail) left =
      .ok (((dotted ls).length : Int), out1) := by
  have hne := labelOk_ne_nil ls hls
  have hd := dotted_succ_le_wire ls hne
  simp only [List.length_append, List.length_singleton] at hfit ⊢
  refine ⟨?_, ?_⟩
  · intro h
    rw [wire_length ls hne, if_neg h]
  · have hw := rrlabels_tostr_wire out ls tail left hls hfit
    rw [if_pos (by omega)] at hw
    exact ⟨_, hw⟩

/-- A use of amended C5 on `[1]a[0]` with capacity 3. -/
theorem rrlabels_tostr_returns_length_witness :
    ∃ out1, rrlabels_tostr [7, 7, 7] (wire [[97]] ++ 0 :: []) 3 =
      .ok (((dotted [[97]]).length : Int), out1) :=
  (rrlabels_tostr_returns_length [7, 7, 7] [[97]] [] 3
    (by intro l hl; simp at hl; subst hl; exact ⟨by decide, by decide, by decide⟩)
    (by decide) (by decide)).2

/-! ## Facts about lists of calls -/

theorem sleepTotal_append (a b : List Event) :
    sleepTotal (a ++ b) = sleepTotal a + sleepTotal b := by
  induction a with
  | nil => simp [sleepTotal]
  | cons e a ih => cases e <;> simp [sleepTotal, ih, Nat.add_assoc]

theorem sleeps_append (a b : List Event) : sleeps (a ++ b) = sleeps a ++ sleeps b := by
  induction a with
  | nil => simp [sleeps]
  | cons e a ih => cases e <;> simp [sleeps, ih]

theorem cancelCount_append (a b : List Event) :
    cancelCount (a ++ b) = cancelCount a + cancelCount b := by
  induction a with
  | nil => simp [cancelCount]
  | cons e a ih => cases e <;> simp [cancelCount, ih, Nat.add_assoc]

theorem processCount_append (a b : List Event) :
    processCount (a ++ b) = processCount a + processCount b := by
  induction a with
  | nil => simp [processCount]
  | cons e a ih => cases e <;> simp [processCount, ih, Nat.add_assoc]

theorem resolveFrees_append (a b : List Event) :
    resolveFrees (a ++ b) = resolveFrees a ++ resolveFrees b := by
  induction a with
  | nil => simp [resolveFrees]
  | cons e a ih => cases e <;> simp [resolveFrees, ih]

theorem slotFrees_append (a b : List Event) :
    slotFrees (a ++ b) = slotFrees a + slotFrees b := by
  induction a with
  | nil => simp [slotFrees]
  | cons e a ih => cases e <;> simp [slotFrees, ih, Nat.add_assoc]

/-! ## Facts about the wait loop -/

theorem timeout_ok_iff (timeout : Int) : timeout_ok timeout = true ↔ 0 ≤ timeout ∧ timeout ≤ 10000 := by
  simp [timeout_ok]

/-- The loop of `ub_common_wait` makes no `ub_cancel`, no `ub_resolve_free` and
no `talloc_free` call. -/
theorem wait_loop_quiet (timeout : Int) (pending : Nat → Bool) (fuel k waited iv k1 : Nat)
    (evs : List Event) (h : wait_loop timeout pending fuel k waited iv = .ok (k1, evs)) :
    cancelCount evs = 0 ∧ resolveFrees evs = [] ∧ slotFrees evs = 0 := by
  induction fuel generalizing k waited iv k1 evs with
  | zero => simp [wait_loop] at h
  | succ fuel ih =>
    unfold wait_loop at h
    split at h
    · split at h
      · injection h with h
        injection h with _ h
        subst h
        simp [cancelCount, resolveFrees, slotFrees]
      · split at h
        · injection h with h
          injection h with _ h
          subst h
          simp [cancelCount, resolveFrees, slotFrees]
        · split at h
          · cases h
          · next k2 evs2 hrec =>
            injection h with h
            injection h with _ h
            subst h
            have := ih _ _ _ _ _ hrec
            simpa [cancelCount, resolveFrees, slotFrees] using this
    · injection h with h
      injection h with _ h
      subst h
      simp [cancelCount, resolveFrees, slotFrees]

/-- The only fault of the wait loop is running out of fuel. -/
theorem wait_loop_error (timeout : Int) (pending : Nat → Bool) (fuel k waited iv : Nat)
    (e : Fault) (h : wait_loop timeout pending fuel k waited iv = .error e) : e = .fuel := by
  induction fuel generalizing k waited iv with
  | zero =>
    simp [wait_loop] at h
    exact h.symm
  | succ fuel ih =>
    unfold wait_loop at h
    split at h
    · split at h
      · cases h
      · split at h
        · cases h
        · split at h
          · next e2 hrec =>
            injection h with h
            subst h
            exact ih _ _ _ hrec
          · cases h
    · cases h

theorem budget_le (timeout : Int) (h1 : timeout ≤ 10000) : budget timeout ≤ 10000000 := by
  unfold budget
  omega

theorem u32_budget (timeout : Int) (h0 : 0 ≤ timeout) (h1 : timeout ≤ 10000) :
    (u32 timeout * 1000) % 4294967296 = budget timeout := by
  unfold u32 budget
  omega

theorem u32_remaining (timeout : Int) (waited : Nat) (h0 : 0 ≤ timeout) (h1 : timeout ≤ 10000)
    (hw : waited ≤ budget timeout) :
    u32 (timeout * 1000 - (waited : Int)) = budget timeout - waited := by
  unfold budget at hw ⊢
  unfold u32
  omega

theorem u32_first (timeout : Int) (h0 : 0 ≤ timeout) (h1 : timeout ≤ 10000) :
    (if timeout > 64 then 64000 else u32 (timeout * 1000)) = firstInterval timeout := by
  unfold u32 firstInterval
  split <;> omega

/-- With the slot at the sentinel at every read, the loop sleeps through the
doubling intervals and ends with a sleep of what remains of the budget. -/
theorem wait_loop_sentinel (timeout : Int) (pending : Nat → Bool)
    (hto : 0 ≤ timeout ∧ timeout ≤ 10000) (hp : ∀ k, pending k = true)
    (fuel k waited iv k1 : Nat) (evs : List Event)
    (hw : waited ≤ budget timeout) (hiv : iv ≤ 20000000)
    (h : wait_loop timeout pending fuel k waited iv = .ok (k1, evs)) :
    waited + sleepTotal evs = budget timeout ∧
    ∃ j, sleeps evs = backoff iv j ++ [budget timeout - (waited + (backoff iv j).sum)] ∧
      waited + (backoff iv j).sum ≤ budget timeout := by
  induction fuel generalizing k waited iv k1 evs with
  | zero => simp [wait_loop] at h
  | succ fuel ih =>
    have hu := u32_budget timeout hto.1 hto.2
    have hrem := u32_remaining timeout waited hto.1 hto.2 hw
    have hble := budget_le timeout hto.2
    have hsum : (waited + iv) % 4294967296 = waited + iv :=
      Nat.mod_eq_of_lt (by omega)
    unfold wait_loop at h
    rw [hp k, hu, hsum, hrem] at h
    clear hu hrem hsum
    simp only [if_true] at h
    by_cases hc : waited + iv > budget timeout
    · rw [if_pos hc] at h
      injection h with h
      injection h with _ h
      subst h
      refine ⟨?_, 0, ?_, ?_⟩
      · simp only [sleepTotal]
        omega
      · simp [sleeps, backoff]
      · simpa [backoff] using hw
    · rw [if_neg hc, hp (k + 1)] at h
      simp only [Bool.not_true, Bool.false_eq_true, if_false] at h
      have hdbl : (iv + iv) % 4294967296 = 2 * iv := by omega
      rw [hdbl] at h
      clear hdbl
      split at h
      · cases h
      · next k2 evs2 hrec =>
        injection h with h
        injection h with _ h
        subst h
        have hiv2 : 2 * iv ≤ 20000000 := by omega
        obtain ⟨hs, j, hj, hle⟩ := ih (k + 2) (waited + iv) (2 * iv) k2 evs2 (by omega) hiv2 hrec
        refine ⟨?_, j + 1, ?_, ?_⟩
        · simp only [sleepTotal]
          omega
        · simp only [sleeps, backoff, hj, List.sum_cons, List.cons_append]
          congr 3
          omega
        · simp only [backoff, List.sum_cons]
          omega

/-- Total of the first `j` polling intervals. -/
theorem backoff_sum_succ (iv j : Nat) :
    (backoff iv (j + 1)).sum = iv + (backoff (2 * iv) j).sum := by
  simp [backoff]

theorem backoff_sum_mono (iv j : Nat) : (backoff iv j).sum ≤ (backoff iv (j + 1)).sum := by
  induction j generalizing iv with
  | zero => simp [backoff]
  | succ j ih =>
    rw [backoff_sum_succ iv (j + 1), backoff_sum_succ iv j]
    have := ih (2 * iv)
    omega

theorem backoff_sum_mono_le (iv j m : Nat) (h : j ≤ m) :
    (backoff iv j).sum ≤ (backoff iv m).sum := by
  induction m with
  | zero =>
    have : j = 0 := by omega
    subst this
    exact Nat.le_refl _
  | succ m ih =>
    by_cases hj : j = m + 1
    · subst hj
      exact Nat.le_refl _
    · exact Nat.le_trans (ih (by omega)) (backoff_sum_mono iv m)

/-- The loop ends within `fuel` rounds once the first `fuel` intervals add up
to more than what remains of the budget, whatever the slot does. -/
theorem wait_loop_returns (timeout : Int) (pending : Nat → Bool)
    (hto : 0 ≤ timeout ∧ timeout ≤ 10000) (fuel k waited iv : Nat)
    (hw : waited ≤ budget timeout) (hiv : iv ≤ 20000000)
    (hreach : budget timeout < waited + (backoff iv fuel).sum) :
    ∃ r, wait_loop timeout pending fuel k waited iv = .ok r := by
  induction fuel generalizing k waited iv with
  | zero =>
    simp [backoff] at hreach
    omega
  | succ fuel ih =>
    have hu := u32_budget timeout hto.1 hto.2
    have hble := budget_le timeout hto.2
    have hsum : (waited + iv) % 4294967296 = waited + iv :=
      Nat.mod_eq_of_lt (by omega)
    unfold wait_loop
    rw [hu, hsum]
    clear hu hsum
    by_cases hpk : pending k = true
    · rw [hpk]
      simp only [if_true]
      by_cases hc : waited + iv > budget timeout
      · rw [if_pos hc]
        exact ⟨_, rfl⟩
      · rw [if_neg hc]
        by_cases hpk1 : pending (k + 1) = true
        · rw [hpk1]
          simp only [Bool.not_true, Bool.false_eq_true, if_false]
          have hdbl : (iv + iv) % 4294967296 = 2 * iv := by omega
          rw [hdbl]
          clear hdbl
          have hiv2 : 2 * iv ≤ 20000000 := by omega
          rw [backoff_sum_succ] at hreach
          obtain ⟨r, hr⟩ := ih (k + 2) (waited + iv) (2 * iv) (by omega) hiv2 (by omega)
          rw [hr]
          exact ⟨_, rfl⟩
        · simp only [Bool.not_eq_true] at hpk1
          rw [hpk1]
          exact ⟨_, rfl⟩
    · simp only [Bool.not_eq_true] at hpk
      rw [hpk]
      exact ⟨_, rfl⟩

/-- With a timeout of 0 and the slot at the sentinel at every read, no amount
of fuel ends the loop. -/
theorem wait_loop_zero (pending : Nat → Bool) (hp : ∀ k, pending k = true) (fuel k : Nat) :
    wait_loop 0 pending fuel k 0 0 = .error .fuel := by
  induction fuel generalizing k with
  | zero => rfl
  | succ fuel ih =>
    unfold wait_loop
    rw [hp k, hp (k + 1)]
    simp [u32, ih]

/-! ## Facts about ub_common_wait -/

/-- The only fault of `ub_common_wait` is running out of fuel. -/
theorem ub_common_wait_error (fuel : Nat) (timeout : Int) (pending : Nat → Bool)
    (async_id : Int) (e : Fault)
    (h : ub_common_wait fuel timeout pending async_id = .error e) : e = .fuel := by
  unfold ub_common_wait at h
  simp only at h
  split at h
  · next e2 hl =>
    injection h with h
    subst h
    exact wait_loop_error _ _ _ _ _ _ _ hl
  · split at h <;> cases h

/-- The return value of `ub_common_wait` is 0 or -1; it calls `ub_cancel` once
when it returns -1 and not at all when it returns 0; its first call is
`ub_process`; it frees nothing. -/
theorem ub_common_wait_shape (fuel : Nat) (timeout : Int) (pending : Nat → Bool)
    (async_id rc : Int) (evs : List Event)
    (h : ub_common_wait fuel timeout pending async_id = .ok (rc, evs)) :
    ((rc = 0 ∧ cancelCount evs = 0) ∨ (rc = -1 ∧ cancelCount evs = 1)) ∧
    (∃ rest, evs = .ub_process :: rest) ∧ resolveFrees evs = [] ∧ slotFrees evs = 0 := by
  unfold ub_common_wait at h
  simp only at h
  split at h
  · cases h
  · next k evs2 hl =>
    obtain ⟨hc, hr, hs⟩ := wait_loop_quiet _ _ _ _ _ _ _ _ hl
    split at h
    · injection h with h
      injection h with h1 h2
      subst h1
      subst h2
      refine ⟨Or.inr ⟨rfl, ?_⟩, ⟨_, rfl⟩, ?_, ?_⟩
      · simp [cancelCount, cancelCount_append, hc]
      · simp [resolveFrees, resolveFrees_append, hr]
      · simp [slotFrees, slotFrees_append, hs]
    · injection h with h
      injection h with h1 h2
      subst h1
      subst h2
      refine ⟨Or.inl ⟨rfl, ?_⟩, ⟨_, rfl⟩, ?_, ?_⟩
      · simp [cancelCount, hc]
      · simp [resolveFrees, hr]
      · simp [slotFrees, hs]

/-- With the slot at the sentinel at every read, a run of `ub_common_wait`
that returns gives -1 after sleeping for exactly the budget. -/
theorem ub_common_wait_sentinel (fuel : Nat) (timeout : Int) (pending : Nat → Bool)
    (async_id rc : Int) (evs : List Event)
    (hto : 0 ≤ timeout ∧ timeout ≤ 10000) (hp : ∀ k, pending k = true)
    (h : ub_common_wait fuel timeout pending async_id = .ok (rc, evs)) :
    rc = -1 ∧ sleepTotal evs = budget timeout ∧
    ∃ j, sleeps evs = backoff (firstInterval timeout) j ++
        [budget timeout - (backoff (firstInterval timeout) j).sum] ∧
      (backoff (firstInterval timeout) j).sum ≤ budget timeout := by
  have hfi := u32_first timeout hto.1 hto.2
  have hfile : firstInterval timeout ≤ 20000000 := by
    unfold firstInterval
    omega
  unfold ub_common_wait at h
  simp only at h
  rw [hfi] at h
  clear hfi
  split at h
  · cases h
  · next k evs2 hl =>
    obtain ⟨hs, j, hj, hle⟩ :=
      wait_loop_sentinel timeout pending hto hp fuel 0 0 _ k evs2 (Nat.zero_le _) hfile hl
    rw [hp k] at h
    simp only [if_true] at h
    injection h with h
    injection h with h1 h2
    subst h1
    subst h2
    refine ⟨rfl, ?_, j, ?_, ?_⟩
    · simp only [sleepTotal, sleepTotal_append]
      omega
    · simp only [sleeps, sleeps_append, hj, Nat.zero_add, List.append_nil]
    · simpa using hle

theorem backoff_sum_eight (iv : Nat) : (backoff iv 8).sum = 255 * iv := by
  simp only [backoff, List.sum_cons, List.sum_nil]
  omega

/-- For a timeout in `1..10000` eight rounds of fuel are enough for
`ub_common_wait` to return, whatever the slot does. -/
theorem ub_common_wait_returns (fuel : Nat) (timeout : Int) (pending : Nat → Bool)
    (async_id : Int) (hto : 1 ≤ timeout ∧ timeout ≤ 10000) (hfuel : 8 ≤ fuel) :
    ∃ r, ub_common_wait fuel timeout pending async_id = .ok r := by
  have h0 : 0 ≤ timeout := by omega
  have hfi := u32_first timeout h0 hto.2
  have hfile : firstInterval timeout ≤ 20000000 := by
    unfold firstInterval
    omega
  have hreach : budget timeout < 0 + (backoff (firstInterval timeout) fuel).sum := by
    have hm := backoff_sum_mono_le (firstInterval timeout) 8 fuel hfuel
    rw [backoff_sum_eight] at hm
    have : budget timeout < 255 * firstInterval timeout := by
      unfold budget firstInterval
      omega
    omega
  obtain ⟨r, hr⟩ := wait_loop_returns timeout pending ⟨h0, hto.2⟩ fuel 0 0 _
    (Nat.zero_le _) hfile hreach
  unfold ub_common_wait
  simp only
  rw [hfi, hr]
  obtain ⟨k, evs⟩ := r
  simp only
  split
  · exact ⟨_, rfl⟩
  · exact ⟨_, rfl⟩

/-- With a timeout of 0 and the slot at the sentinel at every read,
`ub_common_wait` does not return, whatever the fuel. -/
theorem ub_common_wait_zero (fuel : Nat) (pending : Nat → Bool) (async_id : Int)
    (hp : ∀ k, pending k = true) :
    ub_common_wait fuel 0 pending async_id = .error .fuel := by
  unfold ub_common_wait
  have h0 : (if (0 : Int) > 64 then 64000 else u32 (0 * 1000)) = 0 := by
    simp [u32]
  simp only
  rw [h0, wait_loop_zero pending hp fuel 0]

/-! ## Claims about ub_common_wait -/

/-- C6: the timeout 0 passes the range check of `mod_instantiate`, and with it
`ub_common_wait` does not terminate when the slot stays at the sentinel: the
interval is 0, `waited` stays 0, the test `waited + iv > timeout * 1000` is
never true, and no amount of fuel lets the loop end. -/
theorem ub_common_wait_zero_timeout_never_returns :
    timeout_ok 0 = true ∧
    ∀ (fuel : Nat) (async_id : Int),
      ub_common_wait fuel 0 (fun _ => true) async_id = .error .fuel :=
  ⟨rfl, fun fuel async_id => ub_common_wait_zero fuel (fun _ => true) async_id (fun _ => rfl)⟩

/-- C7: for a timeout that passes the range check of `mod_instantiate`,
whenever `ub_common_wait` returns -1 for a slot that was at the sentinel at
every read, the sleeps it asked for are the intervals `iv0, 2 iv0, 4 iv0, ...`
with `iv0 = min(64 ms, timeout)`, followed by one sleep of the remaining budget
`timeout * 1000 - waited` (with `waited ≤ timeout * 1000`, so no underflow);
their sum is at least the timeout and at most the timeout plus one polling
interval, and `ub_cancel` has been called exactly once.  Whenever it returns 0,
`ub_cancel` has not been called. -/
theorem ub_common_wait_budget (fuel : Nat) (timeout : Int) (pending : Nat → Bool)
    (async_id rc : Int) (evs : List Event) (hto : timeout_ok timeout = true)
    (h : ub_common_wait fuel timeout pending async_id = .ok (rc, evs)) :
    (rc = 0 → cancelCount evs = 0) ∧
    (rc = -1 → (∀ k, pending k = true) →
      budget timeout ≤ sleepTotal evs ∧
      sleepTotal evs ≤ budget timeout + firstInterval timeout ∧
      (∃ j, sleeps evs = backoff (firstInterval timeout) j ++
          [budget timeout - (backoff (firstInterval timeout) j).sum] ∧
        (backoff (firstInterval timeout) j).sum ≤ budget timeout) ∧
      cancelCount evs = 1) := by
  have hshape := (ub_common_wait_shape fuel timeout pending async_id rc evs h).1
  refine ⟨?_, ?_⟩
  · intro hrc
    rcases hshape with ⟨_, hc⟩ | ⟨hneg, _⟩
    · exact hc
    · omega
  · intro hrc hp
    obtain ⟨_, hs, hj⟩ := ub_common_wait_sentinel fuel timeout pending async_id rc evs
      ((timeout_ok_iff timeout).mp hto) hp h
    refine ⟨by omega, by omega, hj, ?_⟩
    rcases hshape with ⟨hz, _⟩ | ⟨_, hc⟩
    · omega
    · exact hc

/-- A use of C7: timeout 1 ms, slot at the sentinel throughout. -/
theorem ub_common_wait_budget_witness :
    ub_common_wait 3 1 (fun _ => true) 5 =
      .ok (-1, [.ub_process, .usleep 1000, .ub_process, .usleep 0, .ub_process, .ub_cancel 5]) ∧
    budget 1 ≤ sleepTotal
      [.ub_process, .usleep 1000, .ub_process, .usleep 0, .ub_process, .ub_cancel 5] ∧
    cancelCount
      [.ub_process, .usleep 1000, .ub_process, .usleep 0, .ub_process, .ub_cancel 5] = 1 :=
  have h := (ub_common_wait_budget 3 1 (fun _ => true) 5 (-1)
    [.ub_process, .usleep 1000, .ub_process, .usleep 0, .ub_process, .ub_cancel 5] rfl rfl).2
    rfl (fun _ => rfl)
  ⟨rfl, h.1, h.2.2.2⟩

/-! ## Facts about the lookups -/

theorem xlat_a_shape (ntop : InetNtop) (fuel : Nat) (timeout : Int) (env : Resolver)
    (out : List Nat) (freespace : Nat) :
    LookupShape 1 fuel timeout env out (xlat_a ntop fuel timeout env out freespace) := by
  unfold LookupShape xlat_a
  cases ub_common_wait fuel timeout env.pending env.async_id with
  | error e => rfl
  | ok p =>
    obtain ⟨wrc, wevs⟩ := p
    simp only
    by_cases h : wrc ≠ 0
    · rw [if_pos h, if_pos h]
    · rw [if_neg h, if_neg h]
      cases link_ubres env.cb_err env.cb_result with
      | none => rfl
      | some ub =>
        simp only
        by_cases hf : (ub_common_fail ub).1 ≠ 0
        · rw [if_pos hf, if_pos hf]
        · rw [if_neg hf, if_neg hf]
          cases ntop AF_INET ub.data0 out freespace with
          | none => exact Or.inr ⟨_, _, rfl⟩
          | some out1 =>
            simp only
            cases strlen out1 with
            | error e => exact Or.inl ⟨_, rfl⟩
            | ok n => exact Or.inr ⟨_, _, rfl⟩

theorem xlat_aaaa_shape (ntop : InetNtop) (fuel : Nat) (timeout : Int) (env : Resolver)
    (out : List Nat) (freespace : Nat) :
    LookupShape 28 fuel timeout env out (xlat_aaaa ntop fuel timeout env out freespace) := by
  unfold LookupShape xlat_aaaa
  cases ub_common_wait fuel timeout env.pending env.async_id with
  | error e => rfl
  | ok p =>
    obtain ⟨wrc, wevs⟩ := p
    simp only
    by_cases h : wrc ≠ 0
    · rw [if_pos h, if_pos h]
    · rw [if_neg h, if_neg h]
      cases link_ubres env.cb_err env.cb_result with
      | none => rfl
      | some ub =>
        simp only
        by_cases hf : (ub_common_fail ub).1 ≠ 0
        · rw [if_pos hf, if_pos hf]
        · rw [if_neg hf, if_neg hf]
          cases ntop AF_INET6 ub.data0 out freespace with
          | none => exact Or.inr ⟨_, _, rfl⟩
          | some out1 =>
            simp only
            cases strlen out1 with
            | error e => exact Or.inl ⟨_, rfl⟩
            | ok n => exact Or.inr ⟨_, _, rfl⟩

theorem xlat_ptr_shape (fuel : Nat) (timeout : Int) (env : Resolver)
    (out : List Nat) (freespace : Nat) :
    LookupShape 12 fuel timeout env out (xlat_ptr fuel timeout env out freespace) := by
  unfold LookupShape xlat_ptr
  cases ub_common_wait fuel timeout env.pending env.async_id with
  | error e => rfl
  | ok p =>
    obtain ⟨wrc, wevs⟩ := p
    simp only
    by_cases h : wrc ≠ 0
    · rw [if_pos h, if_pos h]
    · rw [if_neg h, if_neg h]
      cases link_ubres env.cb_err env.cb_result with
      | none => rfl
      | some ub =>
        simp only
        by_cases hf : (ub_common_fail ub).1 ≠ 0
        · rw [if_pos hf, if_pos hf]
        · rw [if_neg hf, if_neg hf]
          cases rrlabels_tostr out ub.data0 freespace with
          | error e => exact Or.inl ⟨_, rfl⟩
          | ok q =>
            obtain ⟨r, out1⟩ := q
            simp only
            by_cases hr : r < 0
            · rw [if_pos hr]
              exact Or.inr ⟨_, _, rfl⟩
            · rw [if_neg hr]
              cases strlen out1 with
              | error e => exact Or.inl ⟨_, rfl⟩
              | ok n => exact Or.inr ⟨_, _, rfl⟩

/-- A lookup whose slot holds NULL or an answer `ub_common_fail` refuses either
has not finished waiting or returns -1 with `out` as it was. -/
theorem lookupShape_refused (rrtype fuel : Nat) (timeout : Int) (env : Resolver)
    (out : List Nat) (r : Except Fault (Int × List Nat × List Event))
    (hs : LookupShape rrtype fuel timeout env out r)
    (hbad : ∀ ub, link_ubres env.cb_err env.cb_result = some ub → (ub_common_fail ub).1 ≠ 0) :
    (ub_common_wait fuel timeout env.pending env.async_id = .error .fuel ∧ r = .error .fuel) ∨
    ∃ evs, r = .ok (-1, out, evs) := by
  unfold LookupShape at hs
  cases hw : ub_common_wait fuel timeout env.pending env.async_id with
  | error e =>
    rw [hw] at hs
    have := ub_common_wait_error _ _ _ _ _ hw
    subst this
    exact Or.inl ⟨rfl, hs⟩
  | ok p =>
    obtain ⟨wrc, wevs⟩ := p
    rw [hw] at hs
    simp only at hs
    right
    by_cases h : wrc ≠ 0
    · rw [if_pos h] at hs
      exact ⟨_, hs⟩
    · rw [if_neg h] at hs
      cases hl : link_ubres env.cb_err env.cb_result with
      | none =>
        rw [hl] at hs
        exact ⟨_, hs⟩
      | some ub =>
        rw [hl] at hs
        simp only at hs
        rw [if_pos (hbad ub hl)] at hs
        exact ⟨_, hs⟩

/-- The frees of a lookup that returns. -/
theorem lookupShape_frees (rrtype fuel : Nat) (timeout : Int) (env : Resolver)
    (out : List Nat) (rc : Int) (out1 : List Nat) (evs : List Event)
    (hs : LookupShape rrtype fuel timeout env out (.ok (rc, out1, evs))) :
    slotFrees evs = 1 ∧
    ∃ wrc wevs, ub_common_wait fuel timeout env.pending env.async_id = .ok (wrc, wevs) ∧
      (wrc = 0 → resolveFrees evs = [link_ubres env.cb_err env.cb_result]) ∧
      (wrc ≠ 0 → resolveFrees evs = []) := by
  unfold LookupShape at hs
  cases hw : ub_common_wait fuel timeout env.pending env.async_id with
  | error e =>
    rw [hw] at hs
    cases hs
  | ok p =>
    obtain ⟨wrc, wevs⟩ := p
    rw [hw] at hs
    simp only at hs
    obtain ⟨_, _, hrf, hsf⟩ := ub_common_wait_shape _ _ _ _ _ _ hw
    have hpre : ∀ (ty : Nat) (tl : List Event),
        slotFrees ([.talloc_ubres, .ub_resolve_async ty, .talloc_free_fmt2] ++ wevs ++ tl) =
          slotFrees tl ∧
        resolveFrees ([.talloc_ubres, .ub_resolve_async ty, .talloc_free_fmt2] ++ wevs ++ tl) =
          resolveFrees tl := by
      intro ty tl
      simp [slotFrees_append, resolveFrees_append, slotFrees, resolveFrees, hrf, hsf]
    by_cases h : wrc ≠ 0
    · rw [if_pos h] at hs
      injection hs with hs
      injection hs with _ hs
      injection hs with _ hs
      subst hs
      refine ⟨?_, wrc, wevs, rfl, fun h0 => absurd h0 h, fun _ => ?_⟩
      · rw [(hpre rrtype _).1]
        rfl
      · rw [(hpre rrtype _).2]
        rfl
    · rw [if_neg h] at hs
      have hz : wrc = 0 := by
        by_contra hne
        exact h hne
      cases hl : link_ubres env.cb_err env.cb_result with
      | none =>
        rw [hl] at hs
        simp only at hs
        injection hs with hs
        injection hs with _ hs
        injection hs with _ hs
        subst hs
        refine ⟨?_, wrc, wevs, rfl, fun _ => ?_, fun hne => absurd hz hne⟩
        · rw [(hpre rrtype _).1]
          rfl
        · rw [(hpre rrtype _).2]
          rfl
      | some ub =>
        rw [hl] at hs
        simp only at hs
        have key : evs = [.talloc_ubres, .ub_resolve_async rrtype, .talloc_free_fmt2] ++ wevs ++
            [.ub_resolve_free (some ub), .talloc_free_ubres] := by
          by_cases hf : (ub_common_fail ub).1 ≠ 0
          · rw [if_pos hf] at hs
            injection hs with hs
            injection hs with _ hs
            injection hs with _ hs
          · rw [if_neg hf] at hs
            rcases hs with ⟨e, he⟩ | ⟨rc2, out2, he⟩
            · cases he
            · injection he with he
              injection he with _ he
              injection he with _ he
        subst key
        refine ⟨?_, wrc, wevs, rfl, fun _ => ?_, fun hne => absurd hz hne⟩
        · rw [(hpre rrtype _).1]
          rfl
        · rw [(hpre rrtype _).2]
          rfl

/-- Every lookup that returns has called `ub_process`: `ub_common_wait` is
entered on every run. -/
theorem lookupShape_process (rrtype fuel : Nat) (timeout : Int) (env : Resolver)
    (out : List Nat) (rc : Int) (out1 : List Nat) (evs : List Event)
    (hs : LookupShape rrtype fuel timeout env out (.ok (rc, out1, evs))) :
    ∃ rest, evs = [.talloc_ubres, .ub_resolve_async rrtype, .talloc_free_fmt2, .ub_process] ++
      rest := by
  unfold LookupShape at hs
  cases hw : ub_common_wait fuel timeout env.pending env.async_id with
  | error e =>
    rw [hw] at hs
    cases hs
  | ok p =>
    obtain ⟨wrc, wevs⟩ := p
    rw [hw] at hs
    simp only at hs
    obtain ⟨_, ⟨rest, hrest⟩, _, _⟩ := ub_common_wait_shape _ _ _ _ _ _ hw
    subst hrest
    by_cases h : wrc ≠ 0
    · rw [if_pos h] at hs
      injection hs with hs
      injection hs with _ hs
      injection hs with _ hs
      exact ⟨rest ++ [.talloc_free_ubres], by rw [hs]; simp⟩
    · rw [if_neg h] at hs
      cases hl : link_ubres env.cb_err env.cb_result with
      | none =>
        rw [hl] at hs
        simp only at hs
        injection hs with hs
        injection hs with _ hs
        injection hs with _ hs
        exact ⟨rest ++ [.ub_resolve_free none, .talloc_free_ubres], by rw [hs]; simp⟩
      | some ub =>
        rw [hl] at hs
        simp only at hs
        by_cases hf : (ub_common_fail ub).1 ≠ 0
        · rw [if_pos hf] at hs
          injection hs with hs
          injection hs with _ hs
          injection hs with _ hs
          exact ⟨rest ++ [.ub_resolve_free (some ub), .talloc_free_ubres], by rw [hs]; simp⟩
        · rw [if_neg hf] at hs
          rcases hs with ⟨e, he⟩ | ⟨rc2, out2, he⟩
          · cases he
          · injection he with he
            injection he with _ he
            injection he with _ he
            exact ⟨rest ++ [.ub_resolve_free (some ub), .talloc_free_ubres], by rw [he]; simp⟩

/-- A lookup whose slot stays at the sentinel, with a timeout in `1..10000`
and eight rounds of fuel: it returns -1 with `out` as it was, after sleeping
for the whole budget and one `ub_cancel`. -/
theorem lookupShape_sentinel (rrtype fuel : Nat) (timeout : Int) (env : Resolver)
    (out : List Nat) (r : Except Fault (Int × List Nat × List Event))
    (hs : LookupShape rrtype fuel timeout env out r)
    (hto : 1 ≤ timeout ∧ timeout ≤ 10000) (hfuel : 8 ≤ fuel)
    (hp : ∀ k, env.pending k = true) :
    ∃ evs, r = .ok (-1, out, evs) ∧ sleepTotal evs = budget timeout ∧
      cancelCount evs = 1 ∧ 1 ≤ processCount evs := by
  obtain ⟨p, hw⟩ := ub_common_wait_returns fuel timeout env.pending env.async_id hto hfuel
  obtain ⟨wrc, wevs⟩ := p
  obtain ⟨hrc, hsl, _⟩ := ub_common_wait_sentinel fuel timeout env.pending env.async_id
    wrc wevs ⟨by omega, hto.2⟩ hp hw
  obtain ⟨hcc, ⟨rest, hrest⟩, _, _⟩ := ub_common_wait_shape _ _ _ _ _ _ hw
  have hc1 : cancelCount wevs = 1 := by
    rcases hcc with ⟨h0, _⟩ | ⟨_, h1⟩
    · omega
    · exact h1
  unfold LookupShape at hs
  rw [hw] at hs
  simp only at hs
  have hne : wrc ≠ 0 := by omega
  rw [if_pos hne] at hs
  refine ⟨_, hs, ?_, ?_, ?_⟩
  · simp [sleepTotal_append, sleepTotal, hsl]
  · simp [cancelCount_append, cancelCount, hc1]
  · rw [hrest]
    simp [processCount_append, processCount]

/-! ## The lookups return -/

theorem strlen_of_mem (s : List Nat) (h : 0 ∈ s) : ∃ n, strlen s = .ok n := by
  obtain ⟨a, b, hab, ha⟩ := mem_split_first s h
  exact ⟨a.length, by rw [hab]; exact strlen_append a b ha⟩

theorem dotted_no_zero (ls : List (List Nat)) (hls : ∀ l ∈ ls, LabelOk l) :
    0 ∉ dotted ls := by
  have key : ∀ ks : List (List Nat), (∀ l ∈ ks, LabelOk l) → 0 ∉ dotsAfter ks := by
    intro ks
    induction ks with
    | nil => simp [dotsAfter]
    | cons k ks ih =>
      intro hks
      have hk : LabelOk k := hks k (by simp)
      have := ih (fun l hl => hks l (by simp [hl]))
      simp only [dotsAfter, List.mem_cons, List.mem_append, not_or]
      exact ⟨by decide, hk.2.2, this⟩
  cases ls with
  | nil => simp [dotted]
  | cons l ls =>
    have hl : LabelOk l := hls l (by simp)
    simp only [dotted, List.mem_append, not_or]
    exact ⟨hl.2.2, key ls (fun k hk => hls k (by simp [hk]))⟩

/-- On a readable buffer and an output buffer of the declared capacity,
`rrlabels_tostr` returns, and after a non-negative return value the output
buffer holds a terminated string. -/
theorem rrlabels_tostr_returns (out rr : List Nat) (left : Nat)
    (hread : Readable rr left) (hcap : left ≤ out.length) :
    ∃ r out1, rrlabels_tostr out rr left = .ok (r, out1) ∧
      (¬ r < 0 → ∃ n, strlen out1 = .ok n) := by
  rcases rrlabels_tostr_cases out rr left with hc | ⟨_, hc⟩ | ⟨ls, tail, hrr, hls, hfit⟩
  · exact ⟨-1, out, hc, fun h => absurd (by decide) h⟩
  · exact absurd hread hc
  · have hd := dotted_succ_le_wire ls (labelOk_ne_nil ls hls)
    have hw := rrlabels_tostr_wire out ls tail left hls hfit
    rw [if_pos (by omega), ← hrr] at hw
    refine ⟨_, _, hw, fun _ => ⟨(dotted ls).length, ?_⟩⟩
    exact strlen_append _ _ (dotted_no_zero ls hls)

theorem xlat_a_returns (ntop : InetNtop) (fuel : Nat) (timeout : Int) (env : Resolver)
    (out : List Nat) (freespace : Nat) (wrc : Int) (wevs : List Event)
    (hw : ub_common_wait fuel timeout env.pending env.async_id = .ok (wrc, wevs))
    (hnt : ∀ ub out1, wrc = 0 → link_ubres env.cb_err env.cb_result = some ub →
      (ub_common_fail ub).1 = 0 → ntop AF_INET ub.data0 out freespace = some out1 →
      0 ∈ out1) :
    ∃ rc out1 evs, xlat_a ntop fuel timeout env out freespace = .ok (rc, out1, evs) := by
  unfold xlat_a
  rw [hw]
  simp only
  by_cases h : wrc ≠ 0
  · rw [if_pos h]
    exact ⟨_, _, _, rfl⟩
  · rw [if_neg h]
    have hz : wrc = 0 := by
      by_contra hne
      exact h hne
    cases hl : link_ubres env.cb_err env.cb_result with
    | none => exact ⟨_, _, _, rfl⟩
    | some ub =>
      simp only
      by_cases hf : (ub_common_fail ub).1 ≠ 0
      · rw [if_pos hf]
        exact ⟨_, _, _, rfl⟩
      · rw [if_neg hf]
        have hf0 : (ub_common_fail ub).1 = 0 := by
          by_contra hne
          exact hf hne
        cases hn : ntop AF_INET ub.data0 out freespace with
        | none => exact ⟨_, _, _, rfl⟩
        | some out1 =>
          obtain ⟨n, hs⟩ := strlen_of_mem out1 (hnt ub out1 hz hl hf0 hn)
          simp only [hs]
          exact ⟨_, _, _, rfl⟩

theorem xlat_aaaa_returns (ntop : InetNtop) (fuel : Nat) (timeout : Int) (env : Resolver)
    (out : List Nat) (freespace : Nat) (wrc : Int) (wevs : List Event)
    (hw : ub_common_wait fuel timeout env.pending env.async_id = .ok (wrc, wevs))
    (hnt : ∀ ub out1, wrc = 0 → link_ubres env.cb_err env.cb_result = some ub →
      (ub_common_fail ub).1 = 0 → ntop AF_INET6 ub.data0 out freespace = some out1 →
      0 ∈ out1) :
    ∃ rc out1 evs, xlat_aaaa ntop fuel timeout env out freespace = .ok (rc, out1, evs) := by
  unfold xlat_aaaa
  rw [hw]
  simp only
  by_cases h : wrc ≠ 0
  · rw [if_pos h]
    exact ⟨_, _, _, rfl⟩
  · rw [if_neg h]
    have hz : wrc = 0 := by
      by_contra hne
      exact h hne
    cases hl : link_ubres env.cb_err env.cb_result with
    | none => exact ⟨_, _, _, rfl⟩
    | some ub =>
      simp only
      by_cases hf : (ub_common_fail ub).1 ≠ 0
      · rw [if_pos hf]
        exact ⟨_, _, _, rfl⟩
      · rw [if_neg hf]
        have hf0 : (ub_common_fail ub).1 = 0 := by
          by_contra hne
          exact hf hne
        cases hn : ntop AF_INET6 ub.data0 out freespace with
        | none => exact ⟨_, _, _, rfl⟩
        | some out1 =>
          obtain ⟨n, hs⟩ := strlen_of_mem out1 (hnt ub out1 hz hl hf0 hn)
          simp only [hs]
          exact ⟨_, _, _, rfl⟩

theorem xlat_ptr_returns (fuel : Nat) (timeout : Int) (env : Resolver)
    (out : List Nat) (freespace : Nat) (wrc : Int) (wevs : List Event)
    (hw : ub_common_wait fuel timeout env.pending env.async_id = .ok (wrc, wevs))
    (hrd : ∀ ub, wrc = 0 → link_ubres env.cb_err env.cb_result = some ub →
      (ub_common_fail ub).1 = 0 → Readable ub.data0 freespace ∧ freespace ≤ out.length) :
    ∃ rc out1 evs, xlat_ptr fuel timeout env out freespace = .ok (rc, out1, evs) := by
  unfold xlat_ptr
  rw [hw]
  simp only
  by_cases h : wrc ≠ 0
  · rw [if_pos h]
    exact ⟨_, _, _, rfl⟩
  · rw [if_neg h]
    have hz : wrc = 0 := by
      by_contra hne
      exact h hne
    cases hl : link_ubres env.cb_err env.cb_result with
    | none => exact ⟨_, _, _, rfl⟩
    | some ub =>
      simp only
      by_cases hf : (ub_common_fail ub).1 ≠ 0
      · rw [if_pos hf]
        exact ⟨_, _, _, rfl⟩
      · rw [if_neg hf]
        have hf0 : (ub_common_fail ub).1 = 0 := by
          by_contra hne
          exact hf hne
        obtain ⟨hread, hcap⟩ := hrd ub hz hl hf0
        obtain ⟨r, out1, hr, hterm⟩ := rrlabels_tostr_returns out ub.data0 freespace hread hcap
        rw [hr]
        simp only
        by_cases hneg : r < 0
        · rw [if_pos hneg]
          exact ⟨_, _, _, rfl⟩
        · rw [if_neg hneg]
          obtain ⟨n, hs⟩ := hterm hneg
          simp only [hs]
          exact ⟨_, _, _, rfl⟩

/-- The frees of a lookup that returns, given what its wait returned. -/
theorem lookupShape_frees_of_wait (rrtype fuel : Nat) (timeout : Int) (env : Resolver)
    (out : List Nat) (rc : Int) (out1 : List Nat) (evs : List Event) (wrc : Int)
    (wevs : List Event)
    (hs : LookupShape rrtype fuel timeout env out (.ok (rc, out1, evs)))
    (hw : ub_common_wait fuel timeout env.pending env.async_id = .ok (wrc, wevs)) :
    slotFrees evs = 1 ∧
    (wrc = 0 → resolveFrees evs = [link_ubres env.cb_err env.cb_result]) ∧
    (wrc ≠ 0 → resolveFrees evs = []) := by
  obtain ⟨h1, wrc2, wevs2, hw2, h2, h3⟩ :=
    lookupShape_frees rrtype fuel timeout env out rc out1 evs hs
  rw [hw] at hw2
  injection hw2 with hw2
  have hrc : wrc = wrc2 := congrArg Prod.fst hw2
  subst hrc
  exact ⟨h1, h2, h3⟩

/-! ## Claims about the lookups -/

/-- C8, as stated, fails: a submission that fails (`ub_resolve_async` returns
-2 and the callback is never called, so the slot stays at the sentinel) is
followed in each of the three lookups by the whole of `ub_common_wait`: service
calls, sleeps and a cancellation (shown for a timeout of 1 ms). -/
theorem xlat_submit_failure_counterexample :
    (Resolver.mk (-2) 7 (fun _ => true) 0 none).submit_rc ≠ 0 ∧
    xlat_a (fun _ _ _ _ => none) 3 1 (Resolver.mk (-2) 7 (fun _ => true) 0 none) [9] 1 =
      .ok (-1, [9], [.talloc_ubres, .ub_resolve_async 1, .talloc_free_fmt2, .ub_process,
        .usleep 1000, .ub_process, .usleep 0, .ub_process, .ub_cancel 7,
        .talloc_free_ubres]) ∧
    xlat_aaaa (fun _ _ _ _ => none) 3 1 (Resolver.mk (-2) 7 (fun _ => true) 0 none) [9] 1 =
      .ok (-1, [9], [.talloc_ubres, .ub_resolve_async 28, .talloc_free_fmt2, .ub_process,
        .usleep 1000, .ub_process, .usleep 0, .ub_process, .ub_cancel 7,
        .talloc_free_ubres]) ∧
    xlat_ptr 3 1 (Resolver.mk (-2) 7 (fun _ => true) 0 none) [9] 1 =
      .ok (-1, [9], [.talloc_ubres, .ub_resolve_async 12, .talloc_free_fmt2, .ub_process,
        .usleep 1000, .ub_process, .usleep 0, .ub_process, .ub_cancel 7,
        .talloc_free_ubres]) :=
  ⟨by decide, rfl, rfl, rfl⟩

/-- C8, amended: in each of the three lookups the return value of
`ub_resolve_async` is not looked at and `ub_common_wait` is entered after every
submission, failed or not: every lookup that returns has made a service call
(`ub_process`).  When the slot stays at the sentinel, as it does after a failed
submission, and the timeout is in `1..10000`, the lookup returns -1 with `out`
as it was, after sleeping for the whole timeout and calling `ub_cancel`
once. -/
theorem xlat_waits_whatever_submission (ntop : InetNtop) (fuel : Nat) (timeout : Int)
    (env : Resolver) (out : List Nat) (freespace : Nat) :
    (∀ r ∈ [xlat_a ntop fuel timeout env out freespace,
        xlat_aaaa ntop fuel timeout env out freespace,
        xlat_ptr fuel timeout env out freespace],
      ∀ rc out1 evs, r = .ok (rc, out1, evs) → 1 ≤ processCount evs) ∧
    (timeout_ok timeout = true → 1 ≤ timeout → 8 ≤ fuel → (∀ k, env.pending k = true) →
      ∀ r ∈ [xlat_a ntop fuel timeout env out freespace,
        xlat_aaaa ntop fuel timeout env out freespace,
        xlat_ptr fuel timeout env out freespace],
      ∃ evs, r = .ok (-1, out, evs) ∧ sleepTotal evs = budget timeout ∧
        cancelCount evs = 1 ∧ 1 ≤ processCount evs) := by
  have ha := xlat_a_shape ntop fuel timeout env out freespace
  have hb := xlat_aaaa_shape ntop fuel timeout env out freespace
  have hc := xlat_ptr_shape fuel timeout env out freespace
  refine ⟨?_, ?_⟩
  · intro r hr rc out1 evs he
    have key : ∀ ty, LookupShape ty fuel timeout env out (.ok (rc, out1, evs)) →
        1 ≤ processCount evs := by
      intro ty hs
      obtain ⟨rest, hrest⟩ := lookupShape_process ty fuel timeout env out rc out1 evs hs
      rw [hrest]
      simp [processCount]
    simp only [List.mem_cons, List.mem_singleton, List.not_mem_nil, or_false] at hr
    rcases hr with hr | hr | hr
    · rw [hr] at he
      rw [he] at ha
      exact key _ ha
    · rw [hr] at he
      rw [he] at hb
      exact key _ hb
    · rw [hr] at he
      rw [he] at hc
      exact key _ hc
  · intro hto h1 hfuel hp r hr
    have hrange : 1 ≤ timeout ∧ timeout ≤ 10000 := ⟨h1, ((timeout_ok_iff timeout).mp hto).2⟩
    simp only [List.mem_cons, List.mem_singleton, List.not_mem_nil, or_false] at hr
    rcases hr with hr | hr | hr
    · rw [hr]
      exact lookupShape_sentinel _ fuel timeout env out _ ha hrange hfuel hp
    · rw [hr]
      exact lookupShape_sentinel _ fuel timeout env out _ hb hrange hfuel hp
    · rw [hr]
      exact lookupShape_sentinel _ fuel timeout env out _ hc hrange hfuel hp

/-- A use of amended C8: a failed submission, timeout 1 ms, lookup `xlat_a`. -/
theorem xlat_waits_whatever_submission_witness :
    ∃ evs, xlat_a (fun _ _ _ _ => none) 8 1 (Resolver.mk (-2) 7 (fun _ => true) 0 none) [9] 1 =
        .ok (-1, [9], evs) ∧ sleepTotal evs = budget 1 ∧
      cancelCount evs = 1 ∧ 1 ≤ processCount evs :=
  (xlat_waits_whatever_submission (fun _ _ _ _ => none) 8 1
    (Resolver.mk (-2) 7 (fun _ => true) 0 none) [9] 1).2 rfl (by decide) (by decide)
    (fun _ => rfl) _ (List.mem_cons_self _ _)

/-- C9: `ub_common_fail` returns 0 exactly for the answers that are not bogus,
not nxdomain and have `havedata` set, and -1 for all others; an answer with
`bogus` set gives -1 whatever `nxdomain` and `havedata` are; the checks come in
the order bogus, nxdomain, empty (the log line is that of the first check that
fires).  So each lookup whose slot holds an answer that is bogus, nxdomain or
without data returns -1 with `out` as it was, once its wait has ended, and with
a timeout in `1..10000` its wait does end. -/
theorem ub_common_fail_classifies :
    (∀ ub : ub_result, (ub_common_fail ub).1 = 0 ↔
      (ub.bogus = 0 ∧ ub.nxdomain = 0 ∧ ub.havedata ≠ 0)) ∧
    (∀ ub : ub_result, (ub_common_fail ub).1 = 0 ∨ (ub_common_fail ub).1 = -1) ∧
    (∀ ub : ub_result, ub.bogus ≠ 0 → ub_common_fail ub = (-1, some .bogus)) ∧
    (∀ ub : ub_result, ub.bogus = 0 → ub.nxdomain ≠ 0 →
      ub_common_fail ub = (-1, some .nxdomain)) ∧
    (∀ ub : ub_result, ub.bogus = 0 → ub.nxdomain = 0 → ub.havedata = 0 →
      ub_common_fail ub = (-1, some .empty)) ∧
    (∀ (ntop : InetNtop) (fuel : Nat) (timeout : Int) (env : Resolver) (out : List Nat)
        (freespace : Nat) (ub : ub_result),
      link_ubres env.cb_err env.cb_result = some ub →
      (ub.bogus ≠ 0 ∨ ub.nxdomain ≠ 0 ∨ ub.havedata = 0) →
      ∀ r ∈ [xlat_a ntop fuel timeout env out freespace,
        xlat_aaaa ntop fuel timeout env out freespace,
        xlat_ptr fuel timeout env out freespace],
      (r = .error .fuel ∨ ∃ evs, r = .ok (-1, out, evs)) ∧
      (timeout_ok timeout = true → 1 ≤ timeout → 8 ≤ fuel →
        ∃ evs, r = .ok (-1, out, evs))) := by
  have hiff : ∀ ub : ub_result, (ub_common_fail ub).1 = 0 ↔
      (ub.bogus = 0 ∧ ub.nxdomain = 0 ∧ ub.havedata ≠ 0) := by
    intro ub
    unfold ub_common_fail
    by_cases h1 : ub.bogus = 0 <;> by_cases h2 : ub.nxdomain = 0 <;>
      by_cases h3 : ub.havedata = 0 <;> simp [h1, h2, h3]
  refine ⟨hiff, ?_, ?_, ?_, ?_, ?_⟩
  · intro ub
    unfold ub_common_fail
    by_cases h1 : ub.bogus = 0 <;> by_cases h2 : ub.nxdomain = 0 <;>
      by_cases h3 : ub.havedata = 0 <;> simp [h1, h2, h3]
  · intro ub h1
    simp [ub_common_fail, h1]
  · intro ub h1 h2
    simp [ub_common_fail, h1, h2]
  · intro ub h1 h2 h3
    simp [ub_common_fail, h1, h2, h3]
  · intro ntop fuel timeout env out freespace ub hl hbadub r hr
    have hbad : ∀ ub2, link_ubres env.cb_err env.cb_result = some ub2 →
        (ub_common_fail ub2).1 ≠ 0 := by
      intro ub2 hl2
      rw [hl] at hl2
      injection hl2 with hl2
      subst hl2
      intro h0
      have := (hiff ub).mp h0
      rcases hbadub with hb | hb | hb
      · exact hb this.1
      · exact hb this.2.1
      · exact this.2.2 hb
    have key : ∀ ty, LookupShape ty fuel timeout env out r →
        (r = .error .fuel ∨ ∃ evs, r = .ok (-1, out, evs)) ∧
        (timeout_ok timeout = true → 1 ≤ timeout → 8 ≤ fuel →
          ∃ evs, r = .ok (-1, out, evs)) := by
      intro ty hs
      have href := lookupShape_refused ty fuel timeout env out r hs hbad
      refine ⟨?_, ?_⟩
      · rcases href with ⟨_, he⟩ | hok
        · exact Or.inl he
        · exact Or.inr hok
      · intro hto h1 hfuel
        rcases href with ⟨hw, _⟩ | hok
        · obtain ⟨p, hp⟩ := ub_common_wait_returns fuel timeout env.pending env.async_id
            ⟨h1, ((timeout_ok_iff timeout).mp hto).2⟩ hfuel
          rw [hw] at hp
          cases hp
        · exact hok
    simp only [List.mem_cons, List.mem_singleton, List.not_mem_nil, or_false] at hr
    rcases hr with hr | hr | hr
    · subst hr
      exact key _ (xlat_a_shape ntop fuel timeout env out freespace)
    · subst hr
      exact key _ (xlat_aaaa_shape ntop fuel timeout env out freespace)
    · subst hr
      exact key _ (xlat_ptr_shape fuel timeout env out freespace)

/-- A use of C9: an answer with `bogus` and `havedata` both set. -/
theorem ub_common_fail_classifies_witness :
    ub_common_fail (ub_result.mk 1 0 1 [127, 0, 0, 1]) = (-1, some .bogus) :=
  ub_common_fail_classifies.2.2.1 (ub_result.mk 1 0 1 [127, 0, 0, 1]) (by decide)

/-- C10: in each of the three lookups, on every run that returns the slot is
freed (`talloc_free(ubres)`) exactly once, also after a timeout and when the
slot holds NULL.  When `ub_common_wait` succeeded, `ub_resolve_free` is called
exactly once, on the content of the slot: on the resolver result when the slot
holds one (whether the lookup then succeeds, the answer is refused by
`ub_common_fail` or the formatting fails) and on NULL otherwise.  After a
timeout `ub_resolve_free` is not called.  And the runs do return: the wait
returns for every timeout in `1..10000`, and once the wait has returned each
lookup returns with these frees on every path, provided the formatting step
stays inside its buffers (`inet_ntop` leaves a terminated string; the record
handed to `rrlabels_tostr` is readable and `out` has `freespace` bytes). -/
theorem xlat_frees_once (ntop : InetNtop) (fuel : Nat) (timeout : Int)
    (env : Resolver) (out : List Nat) (freespace : Nat) :
    (∀ r ∈ [xlat_a ntop fuel timeout env out freespace,
        xlat_aaaa ntop fuel timeout env out freespace,
        xlat_ptr fuel timeout env out freespace],
      ∀ rc out1 evs, r = .ok (rc, out1, evs) →
        slotFrees evs = 1 ∧
        ∃ wrc wevs, ub_common_wait fuel timeout env.pending env.async_id = .ok (wrc, wevs) ∧
          (wrc = 0 → resolveFrees evs = [link_ubres env.cb_err env.cb_result]) ∧
          (wrc ≠ 0 → resolveFrees evs = [])) ∧
    (timeout_ok timeout = true → 1 ≤ timeout → 8 ≤ fuel →
      ∃ wrc wevs, ub_common_wait fuel timeout env.pending env.async_id = .ok (wrc, wevs)) ∧
    (∀ wrc wevs, ub_common_wait fuel timeout env.pending env.async_id = .ok (wrc, wevs) →
      ((∀ ub o1, wrc = 0 → link_ubres env.cb_err env.cb_result = some ub →
          (ub_common_fail ub).1 = 0 → ntop AF_INET ub.data0 out freespace = some o1 →
          0 ∈ o1) →
        ∃ rc out1 evs, xlat_a ntop fuel timeout env out freespace = .ok (rc, out1, evs) ∧
          slotFrees evs = 1 ∧
          (wrc = 0 → resolveFrees evs = [link_ubres env.cb_err env.cb_result]) ∧
          (wrc ≠ 0 → resolveFrees evs = [])) ∧
      ((∀ ub o1, wrc = 0 → link_ubres env.cb_err env.cb_result = some ub →
          (ub_common_fail ub).1 = 0 → ntop AF_INET6 ub.data0 out freespace = some o1 →
          0 ∈ o1) →
        ∃ rc out1 evs, xlat_aaaa ntop fuel timeout env out freespace = .ok (rc, out1, evs) ∧
          slotFrees evs = 1 ∧
          (wrc = 0 → resolveFrees evs = [link_ubres env.cb_err env.cb_result]) ∧
          (wrc ≠ 0 → resolveFrees evs = [])) ∧
      ((∀ ub, wrc = 0 → link_ubres env.cb_err env.cb_result = some ub →
          (ub_common_fail ub).1 = 0 →
          Readable ub.data0 freespace ∧ freespace ≤ out.length) →
        ∃ rc out1 evs, xlat_ptr fuel timeout env out freespace = .ok (rc, out1, evs) ∧
          slotFrees evs = 1 ∧
          (wrc = 0 → resolveFrees evs = [link_ubres env.cb_err env.cb_result]) ∧
          (wrc ≠ 0 → resolveFrees evs = []))) := by
  have ha := xlat_a_shape ntop fuel timeout env out freespace
  have hb := xlat_aaaa_shape ntop fuel timeout env out freespace
  have hc := xlat_ptr_shape fuel timeout env out freespace
  refine ⟨?_, ?_, ?_⟩
  · intro r hr rc out1 evs he
    simp only [List.mem_cons, List.mem_singleton, List.not_mem_nil, or_false] at hr
    rcases hr with hr | hr | hr
    · rw [hr] at he
      rw [he] at ha
      exact lookupShape_frees _ fuel timeout env out rc out1 evs ha
    · rw [hr] at he
      rw [he] at hb
      exact lookupShape_frees _ fuel timeout env out rc out1 evs hb
    · rw [hr] at he
      rw [he] at hc
      exact lookupShape_frees _ fuel timeout env out rc out1 evs hc
  · intro hto h1 hfuel
    obtain ⟨p, hp⟩ := ub_common_wait_returns fuel timeout env.pending env.async_id
      ⟨h1, ((timeout_ok_iff timeout).mp hto).2⟩ hfuel
    exact ⟨p.1, p.2, hp⟩
  · intro wrc wevs hw
    refine ⟨?_, ?_, ?_⟩
    · intro hnt
      obtain ⟨rc, out1, evs, he⟩ :=
        xlat_a_returns ntop fuel timeout env out freespace wrc wevs hw hnt
      rw [he] at ha
      exact ⟨rc, out1, evs, he,
        lookupShape_frees_of_wait _ fuel timeout env out rc out1 evs wrc wevs ha hw⟩
    · intro hnt
      obtain ⟨rc, out1, evs, he⟩ :=
        xlat_aaaa_returns ntop fuel timeout env out freespace wrc wevs hw hnt
      rw [he] at hb
      exact ⟨rc, out1, evs, he,
        lookupShape_frees_of_wait _ fuel timeout env out rc out1 evs wrc wevs hb hw⟩
    · intro hrd
      obtain ⟨rc, out1, evs, he⟩ :=
        xlat_ptr_returns fuel timeout env out freespace wrc wevs hw hrd
      rw [he] at hc
      exact ⟨rc, out1, evs, he,
        lookupShape_frees_of_wait _ fuel timeout env out rc out1 evs wrc wevs hc hw⟩

/-- A use of C10 on three answered lookups (the answer is there before the
first sleep): `xlat_a` whose formatting succeeds, `xlat_aaaa` whose formatting
fails, and `xlat_ptr` on `[1]a[0]`. -/
theorem xlat_frees_once_witness :
    (xlat_a (fun _ _ o _ => some (49 :: 0 :: o.drop 2)) 3 1
        (Resolver.mk 0 7 (fun _ => false) 0 (some (ub_result.mk 0 0 1 [1, 2, 3, 4])))
        [9, 9, 9] 3 =
      .ok (1, [49, 0, 9], [.talloc_ubres, .ub_resolve_async 1, .talloc_free_fmt2,
        .ub_process, .ub_resolve_free (some (ub_result.mk 0 0 1 [1, 2, 3, 4])),
        .talloc_free_ubres])) ∧
    (∃ rc out1 evs, xlat_a (fun _ _ o _ => some (49 :: 0 :: o.drop 2)) 3 1
        (Resolver.mk 0 7 (fun _ => false) 0 (some (ub_result.mk 0 0 1 [1, 2, 3, 4])))
        [9, 9, 9] 3 = .ok (rc, out1, evs) ∧ slotFrees evs = 1 ∧
      ((0 : Int) = 0 →
        resolveFrees evs = [link_ubres 0 (some (ub_result.mk 0 0 1 [1, 2, 3, 4]))]) ∧
      ((0 : Int) ≠ 0 → resolveFrees evs = [])) ∧
    (xlat_aaaa (fun _ _ _ _ => none) 3 1
        (Resolver.mk 0 7 (fun _ => false) 0 (some (ub_result.mk 0 0 1 [1, 2, 3, 4])))
        [9, 9, 9] 3 =
      .ok (-1, [9, 9, 9], [.talloc_ubres, .ub_resolve_async 28, .talloc_free_fmt2,
        .ub_process, .ub_resolve_free (some (ub_result.mk 0 0 1 [1, 2, 3, 4])),
        .talloc_free_ubres])) ∧
    (∃ rc out1 evs, xlat_aaaa (fun _ _ _ _ => none) 3 1
        (Resolver.mk 0 7 (fun _ => false) 0 (some (ub_result.mk 0 0 1 [1, 2, 3, 4])))
        [9, 9, 9] 3 = .ok (rc, out1, evs) ∧ slotFrees evs = 1 ∧
      ((0 : Int) = 0 →
        resolveFrees evs = [link_ubres 0 (some (ub_result.mk 0 0 1 [1, 2, 3, 4]))]) ∧
      ((0 : Int) ≠ 0 → resolveFrees evs = [])) ∧
    (xlat_ptr 3 1 (Resolver.mk 0 7 (fun _ => false) 0 (some (ub_result.mk 0 0 1 [1, 97, 0])))
        [9, 9, 9] 3 =
      .ok (1, [97, 0, 9], [.talloc_ubres, .ub_resolve_async 12, .talloc_free_fmt2,
        .ub_process, .ub_resolve_free (some (ub_result.mk 0 0 1 [1, 97, 0])),
        .talloc_free_ubres])) ∧
    (∃ rc out1 evs, xlat_ptr 3 1
        (Resolver.mk 0 7 (fun _ => false) 0 (some (ub_result.mk 0 0 1 [1, 97, 0])))
        [9, 9, 9] 3 = .ok (rc, out1, evs) ∧ slotFrees evs = 1 ∧
      ((0 : Int) = 0 →
        resolveFrees evs = [link_ubres 0 (some (ub_result.mk 0 0 1 [1, 97, 0]))]) ∧
      ((0 : Int) ≠ 0 → resolveFrees evs = [])) :=
  ⟨rfl,
    ((xlat_frees_once (fun _ _ o _ => some (49 :: 0 :: o.drop 2)) 3 1
      (Resolver.mk 0 7 (fun _ => false) 0 (some (ub_result.mk 0 0 1 [1, 2, 3, 4])))
      [9, 9, 9] 3).2.2 0 [.ub_process] rfl).1
      (fun _ o1 _ _ _ h => by
        injection h with h
        rw [← h]
        simp),
    rfl,
    ((xlat_frees_once (fun _ _ _ _ => none) 3 1
      (Resolver.mk 0 7 (fun _ => false) 0 (some (ub_result.mk 0 0 1 [1, 2, 3, 4])))
      [9, 9, 9] 3).2.2 0 [.ub_process] rfl).2.1
      (fun _ _ _ _ _ h => by cases h),
    rfl,
    ((xlat_frees_once (fun _ _ _ _ => none) 3 1
      (Resolver.mk 0 7 (fun _ => false) 0 (some (ub_result.mk 0 0 1 [1, 97, 0])))
      [9, 9, 9] 3).2.2 0 [.ub_process] rfl).2.2
      (fun ub _ hl _ => by
        injection hl with hl
        rw [← hl]
        exact ⟨Or.inl (by decide), by decide⟩)⟩

end RlmUnbound
